import Mathlib

/-!
Verification of the orchestration-kernel core of the `arq` repository.

Shallow embedding of the Python modules under `src/browser_automation/`:
message_broker.py, communication_protocol.py, agent_orchestrator.py,
fault_tolerance_manager.py, workflow_manager.py, advanced_state_manager.py.

Modelling conventions:
* Python `datetime.now()` timestamps are modelled as `Nat` ticks supplied by
  the caller (the code only compares them / stores them).
* Python dicts are modelled as association lists in insertion order
  (Python dicts preserve insertion order; assignment to an existing key
  keeps its position).
* Python sets are modelled as lists; set iteration order is the list order.
* `queue.PriorityQueue` (a binary heap ordered by `Message.__lt__`) is
  modelled by its observable semantics: `get` removes a least element under
  the `__lt__` order (the leftmost minimal one); for keys that are pairwise
  distinct this is exactly the heap's behaviour.
* Token-bucket floats are modelled as rationals (`ℚ`).
-/

namespace Arq

/-! ### message_broker.py : MessageType, MessagePriority, Message -/

/-- Embeds `MessageType` (message_broker.py). -/
inductive MessageType
  | task | result | event | heartbeat | error | control
deriving DecidableEq, Repr

/-- The `.value` string of a `MessageType`. -/
def MessageType.value : MessageType → String
  | .task => "task"
  | .result => "result"
  | .event => "event"
  | .heartbeat => "heartbeat"
  | .error => "error"
  | .control => "control"

/-- Embeds `MessagePriority` (message_broker.py). -/
inductive MessagePriority
  | critical | high | normal | low
deriving DecidableEq, Repr

/-- The `.value` of a `MessagePriority` (CRITICAL = 0 … LOW = 3). -/
def MessagePriority.value : MessagePriority → Nat
  | .critical => 0
  | .high => 1
  | .normal => 2
  | .low => 3

/-- The `.name` string of a `MessagePriority`. -/
def MessagePriority.pname : MessagePriority → String
  | .critical => "CRITICAL"
  | .high => "HIGH"
  | .normal => "NORMAL"
  | .low => "LOW"

/-- Embeds the `Message` dataclass (message_broker.py).  The payload is an
opaque key/value map; timestamps are `Nat` ticks. -/
structure Message where
  sender : String
  recipient : String
  message_type : MessageType
  payload : List (String × String)
  priority : MessagePriority
  timestamp : Nat
  message_id : String
  correlation_id : Option String
deriving DecidableEq, Repr

/-- Embeds `Message.__lt__`: compare by priority value, then timestamp. -/
def msgLT (a b : Message) : Bool :=
  if a.priority.value ≠ b.priority.value then
    decide (a.priority.value < b.priority.value)
  else
    decide (a.timestamp < b.timestamp)

/-! ### message_broker.py : MessageQueue -/

/-- Embeds `MessageQueue`: a `queue.PriorityQueue(maxsize = max_size)`
holding `Message`s, plus the tracked `message_count` (always equal to the
number of stored elements).  `elems` is kept in arrival order; extraction
picks the least element under `msgLT`. -/
structure MessageQueue where
  max_size : Nat
  elems : List Message
deriving DecidableEq, Repr

/-- A Python `queue` with `maxsize <= 0` is unbounded; `MessageQueue` is full
iff `0 < max_size` and the element count has reached it. -/
def MessageQueue.isFull (q : MessageQueue) : Bool :=
  0 < q.max_size ∧ q.max_size ≤ q.elems.length

/-- Embeds `MessageQueue.put` with `block=False` (the call used by
`MessageBroker.send_message`): on a full queue `PriorityQueue.put` raises
`queue.Full`, which `put` catches, returning `False`. -/
def MessageQueue.put (q : MessageQueue) (m : Message) : Bool × MessageQueue :=
  if q.isFull then (false, q)
  else (true, ⟨q.max_size, q.elems ++ [m]⟩)

/-- Removes the leftmost `msgLT`-minimal element of a list (the observable
behaviour of `heapq` extraction; exact whenever the keys are distinct). -/
def extractMin : List Message → Option (Message × List Message)
  | [] => none
  | m :: rest =>
    match extractMin rest with
    | none => some (m, [])
    | some (m', rest') =>
      if msgLT m' m then some (m', m :: rest') else some (m, rest)

/-- Embeds `MessageQueue.get`: returns the highest-priority, earliest message
or `none` when the queue is empty (timeout). -/
def MessageQueue.get (q : MessageQueue) : Option (Message × MessageQueue) :=
  match extractMin q.elems with
  | none => none
  | some (m, rest) => some (m, ⟨q.max_size, rest⟩)

theorem extractMin_eq_none {l : List Message} : extractMin l = none ↔ l = [] := by
  cases l with
  | nil => simp [extractMin]
  | cons a t =>
    simp only [extractMin]
    cases het : extractMin t with
    | none => simp
    | some p =>
      obtain ⟨m', r'⟩ := p
      by_cases h : msgLT m' a <;> simp [h]

theorem extractMin_length {l : List Message} {m : Message} {rest : List Message}
    (h : extractMin l = some (m, rest)) : rest.length + 1 = l.length := by
  induction l generalizing m rest with
  | nil => simp [extractMin] at h
  | cons a t ih =>
    simp only [extractMin] at h
    cases het : extractMin t with
    | none =>
      rw [het] at h
      have ht : t = [] := extractMin_eq_none.mp het
      subst ht
      simp at h
      obtain ⟨h1, h2⟩ := h
      subst h1; subst h2
      rfl
    | some p =>
      obtain ⟨m', rest'⟩ := p
      rw [het] at h
      by_cases hlt : msgLT m' a
      · simp [hlt] at h
        obtain ⟨h1, h2⟩ := h
        subst h1; subst h2
        simpa using ih het
      · simp [hlt] at h
        obtain ⟨h1, h2⟩ := h
        subst h1; subst h2
        rfl

theorem msgLT_iff {a b : Message} : msgLT a b = true ↔
    a.priority.value < b.priority.value ∨
    (a.priority.value = b.priority.value ∧ a.timestamp < b.timestamp) := by
  unfold msgLT
  by_cases h : a.priority.value = b.priority.value <;> simp [h]

theorem msgLT_false_iff {a b : Message} : msgLT a b = false ↔
    ¬ (a.priority.value < b.priority.value ∨
       (a.priority.value = b.priority.value ∧ a.timestamp < b.timestamp)) := by
  rw [← msgLT_iff]
  cases h : msgLT a b <;> simp

theorem msgLT_asymm {a b : Message} (h : msgLT a b = true) : msgLT b a = false := by
  rw [msgLT_iff] at h
  rw [msgLT_false_iff]
  push_neg
  omega

theorem msgLT_neg_trans {x y z : Message} (h1 : msgLT x y = false)
    (h2 : msgLT y z = false) : msgLT x z = false := by
  rw [msgLT_false_iff] at h1 h2 ⊢
  push_neg at h1 h2 ⊢
  omega

theorem extractMin_perm {l : List Message} {m : Message} {rest : List Message}
    (h : extractMin l = some (m, rest)) : l.Perm (m :: rest) := by
  induction l generalizing m rest with
  | nil => simp [extractMin] at h
  | cons a t ih =>
    simp only [extractMin] at h
    cases het : extractMin t with
    | none =>
      rw [het] at h
      have ht : t = [] := extractMin_eq_none.mp het
      subst ht
      simp at h
      obtain ⟨h1, h2⟩ := h
      subst h1; subst h2
      rfl
    | some p =>
      obtain ⟨m', rest'⟩ := p
      rw [het] at h
      by_cases hlt : msgLT m' a
      · simp [hlt] at h
        obtain ⟨h1, h2⟩ := h
        subst h1; subst h2
        exact ((ih het).cons a).trans (List.Perm.swap m' a rest')
      · simp [hlt] at h
        obtain ⟨h1, h2⟩ := h
        subst h1; subst h2
        rfl

theorem extractMin_min {l : List Message} {m : Message} {rest : List Message}
    (h : extractMin l = some (m, rest)) :
    ∀ x ∈ rest, msgLT x m = false := by
  induction l generalizing m rest with
  | nil => simp [extractMin] at h
  | cons a t ih =>
    simp only [extractMin] at h
    cases het : extractMin t with
    | none =>
      rw [het] at h
      have ht : t = [] := extractMin_eq_none.mp het
      subst ht
      simp at h
      obtain ⟨h1, h2⟩ := h
      subst h1; subst h2
      intro x hx
      simp at hx
    | some p =>
      obtain ⟨m', rest'⟩ := p
      rw [het] at h
      by_cases hlt : msgLT m' a
      · simp [hlt] at h
        obtain ⟨h1, h2⟩ := h
        subst h1; subst h2
        intro x hx
        rcases List.mem_cons.mp hx with hxa | hxr
        · subst hxa
          exact msgLT_asymm hlt
        · exact ih het x hxr
      · simp [hlt] at h
        obtain ⟨h1, h2⟩ := h
        subst h1; subst h2
        intro x hx
        have hperm := extractMin_perm het
        have hx' : x ∈ m' :: rest' := hperm.mem_iff.mp hx
        rcases List.mem_cons.mp hx' with hxm | hxr
        · subst hxm
          exact Bool.eq_false_iff.mpr hlt
        · exact msgLT_neg_trans (ih het x hxr) (Bool.eq_false_iff.mpr hlt)

/-- Draining a message list by repeated minimal extraction, with explicit
fuel (any fuel of at least the list length drains completely). -/
def drainFuel : Nat → List Message → List Message
  | 0, _ => []
  | fuel + 1, l =>
    match extractMin l with
    | none => []
    | some (m, rest) => m :: drainFuel fuel rest

/-- The messages returned by repeatedly calling `MessageQueue.get` until the
queue is empty, in order: the sequence of successive `receive_message`
results for this mailbox. -/
def MessageQueue.drain (q : MessageQueue) : List Message :=
  drainFuel q.elems.length q.elems

theorem drainFuel_perm : ∀ (fuel : Nat) (l : List Message),
    l.length ≤ fuel → (drainFuel fuel l).Perm l := by
  intro fuel
  induction fuel with
  | zero =>
    intro l hl
    have : l = [] := List.length_eq_zero.mp (Nat.le_zero.mp hl)
    subst this
    rfl
  | succ n ih =>
    intro l hl
    simp only [drainFuel]
    cases he : extractMin l with
    | none =>
      have : l = [] := extractMin_eq_none.mp he
      subst this
      rfl
    | some p =>
      obtain ⟨m, rest⟩ := p
      have hlen := extractMin_length he
      have hp := extractMin_perm he
      have ihr := ih rest (by omega)
      exact ((ihr.cons m).trans hp.symm)

theorem drainFuel_sorted : ∀ (fuel : Nat) (l : List Message),
    l.length ≤ fuel →
    (drainFuel fuel l).Pairwise (fun a b => msgLT b a = false) := by
  intro fuel
  induction fuel with
  | zero => intro l _; exact List.Pairwise.nil
  | succ n ih =>
    intro l hl
    simp only [drainFuel]
    cases he : extractMin l with
    | none => exact List.Pairwise.nil
    | some p =>
      obtain ⟨m, rest⟩ := p
      have hlen := extractMin_length he
      refine List.Pairwise.cons ?_ (ih rest (by omega))
      intro b hb
      have hbr : b ∈ rest := (drainFuel_perm n rest (by omega)).mem_iff.mp hb
      exact extractMin_min he b hbr

/-- Harness: perform a sequence of `put` calls (i.e. successive
`send_message` deliveries into one mailbox), returning the final queue and
whether every put succeeded. -/
def putAllList : MessageQueue → List Message → MessageQueue × Bool
  | q, [] => (q, true)
  | q, m :: rest =>
    let r := q.put m
    let t := putAllList r.2 rest
    (t.1, r.1 && t.2)

theorem putAllList_ok : ∀ (q : MessageQueue) (ms : List Message),
    (putAllList q ms).2 = true →
    (putAllList q ms).1 = ⟨q.max_size, q.elems ++ ms⟩ := by
  intro q ms
  induction ms generalizing q with
  | nil =>
    intro _
    simp only [putAllList, List.append_nil]
  | cons m rest ih =>
    intro h
    simp only [putAllList, Bool.and_eq_true] at h ⊢
    obtain ⟨h1, h2⟩ := h
    by_cases hf : q.isFull = true
    · rw [MessageQueue.put, if_pos hf] at h1
      simp at h1
    · rw [MessageQueue.put, if_neg hf] at h2 ⊢
      rw [ih ⟨q.max_size, q.elems ++ [m]⟩ h2]
      simp

/-! ### message_broker.py : DeadLetterQueue, MessageBroker -/

/-- One entry of the dead-letter queue: the failed message, the reason string,
and the timestamp at which it was recorded. -/
structure DLQEntry where
  message : Message
  failure_reason : String
  timestamp : Nat
deriving DecidableEq, Repr

/-- Embeds `DeadLetterQueue` (capacity default 500, oldest evicted first). -/
structure DeadLetterQueue where
  max_messages : Nat
  messages : List DLQEntry
deriving DecidableEq, Repr

/-- Embeds `DeadLetterQueue.add_message`: evict the oldest entry when at
capacity, then append the new entry. -/
def DeadLetterQueue.add_message (q : DeadLetterQueue) (m : Message)
    (reason : String) (now : Nat) : DeadLetterQueue :=
  let ms := if q.max_messages ≤ q.messages.length then q.messages.drop 1 else q.messages
  ⟨q.max_messages, ms ++ [⟨m, reason, now⟩]⟩

/-- Updates the value stored under a key of an association list, keeping its
position; appends when the key is absent (Python dict assignment). -/
def assocSet {α : Type} (l : List (String × α)) (k : String) (v : α) :
    List (String × α) :=
  match l with
  | [] => [(k, v)]
  | (k', v') :: rest =>
    if k' = k then (k, v) :: rest else (k', v') :: assocSet rest k v

/-- Embeds `MessageBroker` (message_broker.py).  `message_queues` is the
per-agent mailbox table in creation order. -/
structure MessageBroker where
  max_queue_size : Nat
  message_queues : List (String × MessageQueue)
  dead_letter_queue : DeadLetterQueue
  message_history : List Message
  max_history : Nat
deriving DecidableEq, Repr

/-- Embeds `MessageBroker.__init__` with the given `max_queue_size`
(default 1000) and a fresh `DeadLetterQueue()` of capacity 500. -/
def MessageBroker.mk0 (max_queue_size : Nat) : MessageBroker :=
  ⟨max_queue_size, [], ⟨500, []⟩, [], 1000⟩

/-- Embeds `MessageBroker._get_or_create_queue`. -/
def MessageBroker.getOrCreateQueue (b : MessageBroker) (agent_id : String) :
    MessageQueue :=
  match b.message_queues.lookup agent_id with
  | some q => q
  | none => ⟨b.max_queue_size, []⟩

/-- Embeds `MessageBroker._record_message`: bounded history ring. -/
def MessageBroker.record_message (b : MessageBroker) (m : Message) :
    MessageBroker :=
  let h := if b.max_history ≤ b.message_history.length
           then b.message_history.drop 1 else b.message_history
  { b with message_history := h ++ [m] }

/-- Embeds `MessageBroker.send_message`.  It fetches (or lazily creates) the
recipient's queue and attempts a non-blocking `put`; on success the message is
recorded in the history, otherwise it is added to the dead-letter queue with
reason "Queue full".  No other check is performed. -/
def MessageBroker.send_message (b : MessageBroker) (m : Message) (now : Nat) :
    Bool × MessageBroker :=
  let q := b.getOrCreateQueue m.recipient
  let r := q.put m
  if r.1 then
    (true, (({ b with
      message_queues := assocSet b.message_queues m.recipient r.2 }).record_message m))
  else
    (false, { b with
      message_queues := assocSet b.message_queues m.recipient r.2,
      dead_letter_queue := b.dead_letter_queue.add_message m "Queue full" now })

/-- Embeds `MessageBroker.receive_message`: a `get` on the agent's queue
(`none` models the timeout on an empty queue). -/
def MessageBroker.receive_message (b : MessageBroker) (agent_id : String) :
    Option Message × MessageBroker :=
  let q := b.getOrCreateQueue agent_id
  match q.get with
  | none => (none, { b with message_queues := assocSet b.message_queues agent_id q })
  | some (m, q') =>
    (some m, { b with message_queues := assocSet b.message_queues agent_id q' })

/-! ### communication_protocol.py : ProtocolValidator, RateLimiter -/

/-- A Python value as far as `ProtocolValidator` inspects one: a string, a
dictionary, or anything else. -/
inductive PyVal
  | str : String → PyVal
  | dict : List (String × PyVal) → PyVal
  | other : PyVal
deriving Repr

/-- A Python dict as seen by the validator. -/
abbrev PyDict := List (String × PyVal)

/-- Key membership in a modelled dict. -/
def pyHas (d : PyDict) (k : String) : Bool :=
  (d.lookup k).isSome

/-- The required fields of `ProtocolValidator.REQUIRED_FIELDS`. -/
def REQUIRED_FIELDS : List String := ["sender", "recipient", "type", "payload"]

/-- The valid types of `ProtocolValidator.VALID_MESSAGE_TYPES`. -/
def VALID_MESSAGE_TYPES : List String :=
  ["task", "result", "event", "heartbeat", "error", "control"]

/-- The valid priorities of `ProtocolValidator.VALID_PRIORITIES`. -/
def VALID_PRIORITIES : List String := ["CRITICAL", "HIGH", "NORMAL", "LOW"]

/-- Whether a modelled Python value is a string belonging to a list. -/
def pyValIn (v : Option PyVal) (l : List String) : Bool :=
  match v with
  | some (.str s) => l.contains s
  | _ => false

/-- Embeds `ProtocolValidator.validate_message`: raises `ValueError`
(modelled as `Except.error`) on a malformed message, returns `True`
otherwise. -/
def validate_message (message : PyDict) : Except String Bool :=
  if ¬ (REQUIRED_FIELDS.all fun f => pyHas message f) then
    .error "Missing required fields"
  else if ¬ pyValIn (message.lookup "type") VALID_MESSAGE_TYPES then
    .error "Invalid message type"
  else if pyHas message "priority" ∧
      ¬ pyValIn (message.lookup "priority") VALID_PRIORITIES then
    .error "Invalid priority"
  else
    match message.lookup "payload" with
    | some (.dict _) => .ok true
    | _ => .error "Payload must be a dictionary"

/-- Embeds `Message.to_dict` restricted to the fields the validator reads. -/
def Message.to_dict (m : Message) : PyDict :=
  [("sender", .str m.sender),
   ("recipient", .str m.recipient),
   ("type", .str m.message_type.value),
   ("payload", .dict (m.payload.map fun p => (p.1, .str p.2))),
   ("priority", .str m.priority.pname),
   ("timestamp", .other),
   ("message_id", .str m.message_id),
   ("correlation_id", .other)]

/-- Embeds `RateLimiter` (communication_protocol.py): a token bucket with
rational tokens and timestamps. -/
structure RateLimiter where
  rate : ℚ
  capacity : ℚ
  tokens : ℚ
  last_update : ℚ
deriving DecidableEq, Repr

/-- The minimum of two rationals, written as an explicit comparison so the
kernel can evaluate it (`min` of Python). -/
def ratMin (a b : ℚ) : ℚ := if a ≤ b then a else b

theorem ratMin_eq_min (a b : ℚ) : ratMin a b = min a b := by
  unfold ratMin
  by_cases h : a ≤ b
  · simp [h, min_eq_left h]
  · have := le_of_not_le h
    simp [h, min_eq_right this]

/-- Embeds `RateLimiter.allow_message`: refill `elapsed * rate` up to
`capacity`, then consume one token if at least one is available. -/
def RateLimiter.allow_message (rl : RateLimiter) (now : ℚ) : Bool × RateLimiter :=
  let elapsed := now - rl.last_update
  let tokens := ratMin rl.capacity (rl.tokens + elapsed * rl.rate)
  if 1 ≤ tokens then
    (true, { rl with tokens := tokens - 1, last_update := now })
  else
    (false, { rl with tokens := tokens, last_update := now })

/-! ### Supporting lemmas for the broker claims -/

theorem assocSet_lookup {α : Type} (l : List (String × α)) (k : String) (v : α) :
    (assocSet l k v).lookup k = some v := by
  induction l with
  | nil => simp [assocSet, List.lookup]
  | cons p rest ih =>
    obtain ⟨k', v'⟩ := p
    by_cases h : k' = k
    · subst h
      simp [assocSet, List.lookup]
    · simp only [assocSet, if_neg h, List.lookup]
      have : (k == k') = false := by
        simp [Ne.symm h]
      rw [this]
      exact ih

/-- Priority-descending-then-FIFO order between two messages: strictly more
urgent priority first; equal priorities ordered by timestamp (send order). -/
def prioThenFIFO (a b : Message) : Prop :=
  a.priority.value < b.priority.value ∨
  (a.priority.value = b.priority.value ∧ a.timestamp < b.timestamp)

theorem sorted_to_prioThenFIFO {a b : Message} (hf : msgLT b a = false)
    (hn : a.timestamp ≠ b.timestamp) : prioThenFIFO a b := by
  rw [msgLT_false_iff] at hf
  push_neg at hf
  obtain ⟨h1, h2⟩ := hf
  unfold prioThenFIFO
  by_cases hp : a.priority.value = b.priority.value
  · right
    refine ⟨hp, ?_⟩
    have := h2 hp.symm
    omega
  · left
    omega

/-! ### Claim C2 -/

/-- C2: for every sequence of successful sends into one agent's mailbox,
successive `receive_message` calls return the messages sorted by priority
descending (critical before high before normal before low) and, among equal
priorities, in send (FIFO) order.  Sends are modelled by successive `put`
calls on the recipient's mailbox with strictly increasing timestamps (the
timestamps `datetime.now()` assigns in send order); the received sequence is
the drain of the mailbox, and `receive_message` is shown to return exactly
the mailbox's `get` result. -/
theorem C2_receive_order_priority_then_fifo
    (cap : Nat) (ms : List Message)
    (hts : ms.Pairwise (fun a b => a.timestamp < b.timestamp))
    (hok : (putAllList ⟨cap, []⟩ ms).2 = true) :
    ((putAllList ⟨cap, []⟩ ms).1.drain).Perm ms ∧
    ((putAllList ⟨cap, []⟩ ms).1.drain).Pairwise prioThenFIFO ∧
    ∀ (b : MessageBroker) (agent : String),
      (b.receive_message agent).1 = ((b.getOrCreateQueue agent).get).map Prod.fst := by
  have hq := putAllList_ok _ _ hok
  rw [hq]
  have hme : (MessageQueue.mk cap ([] ++ ms)).drain = drainFuel ms.length ms := by
    unfold MessageQueue.drain
    simp
  rw [hme]
  have hperm : (drainFuel ms.length ms).Perm ms := drainFuel_perm ms.length ms le_rfl
  refine ⟨hperm, ?_, ?_⟩
  · have h1 := drainFuel_sorted ms.length ms le_rfl
    have hne : ms.Pairwise (fun a b => a.timestamp ≠ b.timestamp) :=
      hts.imp fun h => Nat.ne_of_lt h
    have hsym : ∀ {x y : Message}, x.timestamp ≠ y.timestamp →
        y.timestamp ≠ x.timestamp := fun h => Ne.symm h
    have h2 : (drainFuel ms.length ms).Pairwise
        (fun a b => a.timestamp ≠ b.timestamp) :=
      (List.Perm.pairwise_iff hsym hperm).mpr hne
    exact (h1.and h2).imp fun h => sorted_to_prioThenFIFO h.1 h.2
  · intro b agent
    unfold MessageBroker.receive_message
    cases hg : (b.getOrCreateQueue agent).get with
    | none => simp [hg]
    | some p => simp [hg]

/-- Fixed messages realising the spec's example: NORMAL "a", HIGH "b",
LOW "c" sent in that order. -/
def msgA : Message := ⟨"s", "r", .event, [], .normal, 0, "a", none⟩

/-- Second example message (HIGH priority, sent second). -/
def msgB : Message := ⟨"s", "r", .event, [], .high, 1, "b", none⟩

/-- Third example message (LOW priority, sent third). -/
def msgC : Message := ⟨"s", "r", .event, [], .low, 2, "c", none⟩

/-- Witness for C2: after send(NORMAL,"a"), send(HIGH,"b"), send(LOW,"c")
the receive order is "b", "a", "c". -/
theorem C2_witness :
    ((putAllList ⟨1000, []⟩ [msgA, msgB, msgC]).1.drain).map Message.message_id
      = ["b", "a", "c"] ∧
    ((putAllList ⟨1000, []⟩ [msgA, msgB, msgC]).1.drain).Perm [msgA, msgB, msgC] :=
  ⟨by decide,
   (C2_receive_order_priority_then_fifo 1000 [msgA, msgB, msgC]
      (by decide) (by decide)).1⟩

/-! ### Claim C1 -/

/-- C1 (amended): `send_message` enqueues into the recipient's mailbox if and
only if the mailbox is below capacity; otherwise it returns false and records
the message in the dead-letter queue with reason "Queue full".  (Schema
validation and rate limiting are not consulted by `send_message`; see the
counterexample theorem.) -/
theorem C1_send_message_capacity_only (b : MessageBroker) (m : Message) (now : Nat) :
    ((b.send_message m now).1 = true ↔
      (b.getOrCreateQueue m.recipient).isFull = false) ∧
    ((b.send_message m now).1 = true →
      (b.send_message m now).2.message_queues.lookup m.recipient =
        some ⟨(b.getOrCreateQueue m.recipient).max_size,
              (b.getOrCreateQueue m.recipient).elems ++ [m]⟩ ∧
      (b.send_message m now).2.dead_letter_queue = b.dead_letter_queue) ∧
    ((b.send_message m now).1 = false →
      (b.send_message m now).2.dead_letter_queue =
        b.dead_letter_queue.add_message m "Queue full" now ∧
      (b.send_message m now).2.message_queues.lookup m.recipient =
        some (b.getOrCreateQueue m.recipient)) := by
  unfold MessageBroker.send_message MessageQueue.put
  by_cases hf : (b.getOrCreateQueue m.recipient).isFull = true
  · simp [hf, MessageBroker.record_message, assocSet_lookup]
  · simp only [Bool.not_eq_true] at hf
    simp [hf, MessageBroker.record_message, assocSet_lookup]

/-- The message used in the C1 scenarios: well-formed (passes
`ProtocolValidator.validate_message` on its dict form). -/
def c1Msg : Message := ⟨"alice", "bob", .task, [("k", "v")], .normal, 0, "m1", none⟩

/-- A rate limiter whose bucket is empty: `allow_message` returns false. -/
def c1Limiter : RateLimiter := ⟨2, 2, 0, 0⟩

/-- Counterexample to C1 as stated: `send_message` enqueues the message and
returns true even though the sender has no remaining rate-limiter token
(the broker consults neither `RateLimiter.allow_message` nor
`ProtocolValidator.validate_message`; the message here even passes
validation, yet the claimed "enqueued iff validation and capacity and rate
token" equivalence fails because the rate-token conjunct is false while the
message is enqueued). -/
theorem C1_counterexample :
    (c1Limiter.allow_message 0).1 = false ∧
    validate_message c1Msg.to_dict = .ok true ∧
    ((MessageBroker.mk0 1000).send_message c1Msg 0).1 = true ∧
    ((MessageBroker.mk0 1000).send_message c1Msg 0).2.message_queues.lookup "bob"
      = some ⟨1000, [c1Msg]⟩ ∧
    ((MessageBroker.mk0 1000).send_message c1Msg 0).2.dead_letter_queue.messages
      = [] := by
  refine ⟨by norm_num [c1Limiter, RateLimiter.allow_message, ratMin], ?_, ?_, ?_, ?_⟩ <;> rfl

/-- A broker whose mailbox for "bob" is at capacity (max size 1, one queued
message). -/
def fullBroker : MessageBroker :=
  ⟨1, [("bob", ⟨1, [c1Msg]⟩)], ⟨500, []⟩, [], 1000⟩

/-- Witness for the amended C1: on a full mailbox the send fails and the
dead-letter queue records the message with reason "Queue full"; on a fresh
broker the send succeeds. -/
theorem C1_witness :
    ((fullBroker.send_message c1Msg 7).2.dead_letter_queue =
      fullBroker.dead_letter_queue.add_message c1Msg "Queue full" 7) ∧
    ((MessageBroker.mk0 1000).send_message c1Msg 0).1 = true :=
  ⟨((C1_send_message_capacity_only fullBroker c1Msg 7).2.2 (by rfl)).1, by rfl⟩

/-! ### agent_orchestrator.py : AgentPool -/

theorem assocSet_lookup_ne {α : Type} (l : List (String × α)) (k k' : String)
    (v : α) (h : k' ≠ k) : (assocSet l k v).lookup k' = l.lookup k' := by
  induction l with
  | nil =>
    have hb : (k' == k) = false := by simp [h]
    simp [assocSet, List.lookup, hb]
  | cons p rest ih =>
    obtain ⟨k0, v0⟩ := p
    by_cases hk : k0 = k
    · subst hk
      simp only [assocSet, if_pos rfl, List.lookup]
      have h1 : (k' == k0) = false := by simp [h]
      rw [h1]
    · simp only [assocSet, if_neg hk, List.lookup]
      cases hbe : (k' == k0) with
      | true => rfl
      | false => exact ih

theorem assocSet_length_of_none {α : Type} (l : List (String × α)) (k : String)
    (v : α) (h : l.lookup k = none) : (assocSet l k v).length = l.length + 1 := by
  induction l with
  | nil => rfl
  | cons p rest ih =>
    obtain ⟨k0, v0⟩ := p
    simp only [List.lookup] at h
    by_cases hk : k = k0
    · simp [hk] at h
    · have hbe : (k == k0) = false := by simp [hk]
      rw [hbe] at h
      have hne : k0 ≠ k := fun he => hk he.symm
      simp only [assocSet, if_neg hne, List.length_cons]
      rw [ih h]

theorem assocSet_length_of_some {α : Type} (l : List (String × α)) (k : String)
    (v : α) (h : (l.lookup k).isSome = true) :
    (assocSet l k v).length = l.length := by
  induction l with
  | nil => simp [List.lookup] at h
  | cons p rest ih =>
    obtain ⟨k0, v0⟩ := p
    simp only [List.lookup] at h
    by_cases hk : k0 = k
    · simp only [assocSet, if_pos hk, List.length_cons]
    · have hne : ¬ k = k0 := fun he => hk he.symm
      have hbe : (k == k0) = false := by simp [hne]
      rw [hbe] at h
      simp only [assocSet, if_neg hk, List.length_cons]
      rw [ih h]

/-- Embeds the agent-info dict created by `AgentPool.register_agent`. -/
structure AgentInfo where
  id : String
  capabilities : List String
  status : String
  current_task : Option String
  tasks_completed : Nat
  registered_time : Nat
deriving DecidableEq, Repr

/-- Embeds `AgentPool` (agent_orchestrator.py). -/
structure AgentPool where
  pool_name : String
  max_agents : Nat
  agents : List (String × AgentInfo)
deriving DecidableEq, Repr

/-- Embeds `AgentPool.register_agent`: fails only when the pool already holds
`max_agents` entries; otherwise writes the agent entry (overwriting any
existing entry with the same id) and returns true. -/
def AgentPool.register_agent (p : AgentPool) (agent_id : String)
    (capabilities : List String) (now : Nat) : Bool × AgentPool :=
  if p.max_agents ≤ p.agents.length then (false, p)
  else
    (true,
      { p with
          agents := assocSet p.agents agent_id
            ⟨agent_id, capabilities, "idle", none, 0, now⟩ })

/-- Embeds `AgentPool.get_pool_size`. -/
def AgentPool.get_pool_size (p : AgentPool) : Nat :=
  p.agents.length

/-! ### Claim C5 -/

/-- A fresh pool as built by `AgentPool("test_pool")` (default
`max_agents = 100`). -/
def c5Pool : AgentPool := ⟨"test_pool", 100, []⟩

/-- Counterexample to C5 as stated: on a fresh pool below capacity,
registering the same agent id twice returns true both times (the claim says
the second call returns false); the pool size does remain 1. -/
theorem C5_counterexample :
    (c5Pool.register_agent "agent1" ["cap"] 0).1 = true ∧
    ((c5Pool.register_agent "agent1" ["cap"] 0).2.register_agent
        "agent1" ["cap"] 1).1 = true ∧
    ((c5Pool.register_agent "agent1" ["cap"] 0).2.register_agent
        "agent1" ["cap"] 1).2.get_pool_size = 1 := by
  refine ⟨rfl, rfl, rfl⟩

/-- C5 (amended): on a pool with room for at least two more entries,
registering a fresh agent id twice returns true both times — the second call
overwrites the entry — and the pool size ends at one more than before
(`register_agent` returns false only when the pool is at `max_agents`). -/
theorem C5_register_twice_overwrites (p : AgentPool) (id : String)
    (caps caps' : List String) (t t' : Nat)
    (hfresh : p.agents.lookup id = none)
    (hcap : p.agents.length + 1 < p.max_agents) :
    (p.register_agent id caps t).1 = true ∧
    (p.register_agent id caps t).2.get_pool_size = p.get_pool_size + 1 ∧
    ((p.register_agent id caps t).2.register_agent id caps' t').1 = true ∧
    ((p.register_agent id caps t).2.register_agent id caps' t').2.get_pool_size
      = p.get_pool_size + 1 := by
  have h1 : ¬ (p.max_agents ≤ p.agents.length) := by omega
  have hlen : (assocSet p.agents id ⟨id, caps, "idle", none, 0, t⟩).length
      = p.agents.length + 1 := assocSet_length_of_none _ _ _ hfresh
  have h2 : ¬ (p.max_agents ≤
      (assocSet p.agents id ⟨id, caps, "idle", none, 0, t⟩).length) := by
    rw [hlen]; omega
  have hsome : ((assocSet p.agents id ⟨id, caps, "idle", none, 0, t⟩).lookup id).isSome
      = true := by
    rw [assocSet_lookup]; rfl
  have hlen2 := assocSet_length_of_some
      (assocSet p.agents id ⟨id, caps, "idle", none, 0, t⟩) id
      (⟨id, caps', "idle", none, 0, t'⟩ : AgentInfo) hsome
  simp only [AgentPool.register_agent, AgentPool.get_pool_size, if_neg h1,
    if_neg h2]
  exact ⟨trivial, hlen, trivial, by rw [hlen2, hlen]⟩

/-- Witness for the amended C5 at the concrete fresh pool. -/
theorem C5_witness :
    c5Pool.agents.lookup "agent1" = none ∧
    c5Pool.agents.length + 1 < c5Pool.max_agents ∧
    ((c5Pool.register_agent "agent1" ["cap"] 0).2.register_agent
        "agent1" ["cap"] 1).2.get_pool_size = c5Pool.get_pool_size + 1 :=
  ⟨rfl, by decide,
   (C5_register_twice_overwrites c5Pool "agent1" ["cap"] ["cap"] 0 1
      rfl (by decide)).2.2.2⟩

/-! ### fault_tolerance_manager.py : ErrorRecovery -/

/-- Embeds `RecoveryStrategy` (fault_tolerance_manager.py). -/
inductive RecoveryStrategy
  | restart | reassign | failover | manual
deriving DecidableEq, Repr

/-- The `.value` string of a `RecoveryStrategy`. -/
def RecoveryStrategy.value : RecoveryStrategy → String
  | .restart => "restart"
  | .reassign => "reassign"
  | .failover => "failover"
  | .manual => "manual"

/-- One entry of the recovery-history log, as appended by
`ErrorRecovery._log_recovery_attempt`. -/
structure RecoveryEntry where
  agent_id : String
  strategy : String
  success : Bool
  error : Option String
  timestamp : Nat
deriving DecidableEq, Repr

/-- Embeds `ErrorRecovery`: just the recovery-history list. -/
structure ErrorRecovery where
  recovery_history : List RecoveryEntry
deriving DecidableEq, Repr

/-- Embeds `ErrorRecovery._log_recovery_attempt`. -/
def ErrorRecovery.log_recovery_attempt (er : ErrorRecovery) (agent_id : String)
    (strategy : RecoveryStrategy) (success : Bool) (error : Option String)
    (now : Nat) : ErrorRecovery :=
  ⟨er.recovery_history ++ [⟨agent_id, strategy.value, success, error, now⟩]⟩

/-- Embeds `ErrorRecovery.attempt_recovery`: RESTART/REASSIGN/FAILOVER
delegate to helpers that log one success entry and return true; any other
strategy (MANUAL) falls into the bare `else` branch, returning false without
logging.  (The `except` branch is unreachable: the three helpers only append
to the history and return `True`.) -/
def ErrorRecovery.attempt_recovery (er : ErrorRecovery) (agent_id : String)
    (strategy : RecoveryStrategy) (now : Nat) : Bool × ErrorRecovery :=
  match strategy with
  | .restart => (true, er.log_recovery_attempt agent_id .restart true none now)
  | .reassign => (true, er.log_recovery_attempt agent_id .reassign true none now)
  | .failover => (true, er.log_recovery_attempt agent_id .failover true none now)
  | .manual => (false, er)

/-! ### Claim C6 -/

/-- Counterexample to C6 as stated: an `attempt_recovery` call with the
MANUAL strategy returns false and appends no entry at all to the
recovery-history log (the claim says every call appends exactly one). -/
theorem C6_counterexample :
    ((ErrorRecovery.mk []).attempt_recovery "agent1" .manual 0).1 = false ∧
    ((ErrorRecovery.mk []).attempt_recovery "agent1" .manual 0).2.recovery_history.length
      = 0 := by
  exact ⟨rfl, rfl⟩

/-- C6 (amended): a call to `attempt_recovery` with RESTART, REASSIGN or
FAILOVER returns true and appends exactly one entry (agent id, strategy
value, success flag true, timestamp) to the recovery-history log; a call with
MANUAL returns false and appends nothing. -/
theorem C6_recovery_logging (er : ErrorRecovery) (agent_id : String)
    (strategy : RecoveryStrategy) (now : Nat) :
    (strategy ≠ .manual →
      (er.attempt_recovery agent_id strategy now).1 = true ∧
      (er.attempt_recovery agent_id strategy now).2.recovery_history =
        er.recovery_history ++ [⟨agent_id, strategy.value, true, none, now⟩]) ∧
    (strategy = .manual →
      (er.attempt_recovery agent_id strategy now).1 = false ∧
      (er.attempt_recovery agent_id strategy now).2 = er) := by
  cases strategy <;>
    simp [ErrorRecovery.attempt_recovery, ErrorRecovery.log_recovery_attempt]

/-- Witness for the amended C6: a RESTART attempt on a fresh log appends one
success entry, a MANUAL attempt leaves the log unchanged. -/
theorem C6_witness :
    ((ErrorRecovery.mk []).attempt_recovery "agent1" .restart 3).2.recovery_history
      = [⟨"agent1", "restart", true, none, 3⟩] ∧
    ((ErrorRecovery.mk []).attempt_recovery "agent1" .manual 3).2
      = ErrorRecovery.mk [] :=
  ⟨by
     have h := (C6_recovery_logging (ErrorRecovery.mk []) "agent1" .restart 3).1
       (by decide)
     simpa using h.2,
   ((C6_recovery_logging (ErrorRecovery.mk []) "agent1" .manual 3).2 rfl).2⟩

/-! ### advanced_state_manager.py : StateMachine -/

theorem lookup_mem {α : Type} {l : List (String × α)} {k : String} {v : α}
    (h : l.lookup k = some v) : (k, v) ∈ l := by
  induction l with
  | nil => simp [List.lookup] at h
  | cons p rest ih =>
    obtain ⟨k0, v0⟩ := p
    simp only [List.lookup] at h
    cases hbe : (k == k0) with
    | true =>
      rw [hbe] at h
      have hk : k = k0 := by simpa using hbe
      injection h with hv
      subst hk
      subst hv
      exact List.mem_cons_self _ _
    | false =>
      rw [hbe] at h
      exact List.mem_cons_of_mem _ (ih h)

/-- Embeds `StateType` (advanced_state_manager.py). -/
inductive StateType
  | initial | intermediate | terminal | error | wait
deriving DecidableEq, Repr

/-- Embeds `TransitionType` (advanced_state_manager.py). -/
inductive TransitionType
  | normal | conditional | fallback | timeout
deriving DecidableEq, Repr

/-- Embeds the `StateTransition` dataclass.  The context type is a parameter
`Γ`; a transition's `condition` reads a (truthy) context, its `guard_clauses`
read the raw context argument (`none` models a falsy context, i.e. Python
`None` or an empty dict).  The side-effecting `action` callable is modelled
by an opaque identifier.  The uuid `transition_id` and `created_at` metadata
are omitted (never read by the logic). -/
structure StateTransition (Γ : Type) where
  from_state : String
  to_state : String
  transition_type : TransitionType
  condition : Option (Γ → Bool)
  action : Option Nat
  guard_clauses : List (Option Γ → Bool)

/-- Embeds the `AuditEntry` dataclass (uuid `entry_id` and wall-clock
`timestamp` omitted as opaque metadata never read by the logic). -/
structure AuditEntry where
  from_state : String
  to_state : String
  trigger : String
  user : String
  success : Bool
  error_message : Option String
deriving DecidableEq, Repr

/-- Embeds `StateMachine` (advanced_state_manager.py).  Entry/exit handlers
and callbacks are modelled as opaque identifiers so a run can report which
ones fired. -/
structure StateMachine (Γ : Type) where
  current_state : String
  states : List (String × StateType)
  transitions : List (String × List (StateTransition Γ))
  state_entry_handlers : List (String × Nat)
  state_exit_handlers : List (String × Nat)
  callbacks : List (String × List Nat)
  audit_trail : List AuditEntry

/-- Embeds `StateMachine.__init__(initial_state)`: note that the initial
state is NOT added to `states`. -/
def StateMachine.mk0 (Γ : Type) (initial_state : String) : StateMachine Γ :=
  ⟨initial_state, [], [], [], [], [], []⟩

/-- Embeds `StateMachine.define_state`. -/
def StateMachine.define_state {Γ : Type} (m : StateMachine Γ) (state : String)
    (state_type : StateType) : StateMachine Γ :=
  { m with states := assocSet m.states state state_type }

/-- Embeds `StateMachine.add_transition`: silently ignored when either
endpoint is undeclared, else appended to the from-state's edge list. -/
def StateMachine.add_transition {Γ : Type} (m : StateMachine Γ)
    (t : StateTransition Γ) : StateMachine Γ :=
  if ((m.states.lookup t.from_state).isSome ∧ (m.states.lookup t.to_state).isSome) then
    { m with
        transitions := assocSet m.transitions t.from_state
          (((m.transitions.lookup t.from_state).getD []) ++ [t]) }
  else m

/-- Whether an edge matches a context: `condition is None or
(context and condition(context))`, and every guard clause accepts the raw
context. -/
def edgeMatches {Γ : Type} (ctx : Option Γ) (t : StateTransition Γ) : Bool :=
  (match t.condition with
   | none => true
   | some cond =>
     match ctx with
     | none => false
     | some c => cond c) &&
  t.guard_clauses.all fun g => g ctx

/-- The first matching outgoing edge, scanning in declaration order. -/
def findEdge {Γ : Type} (ctx : Option Γ) (l : List (StateTransition Γ)) :
    Option (StateTransition Γ) :=
  l.find? (edgeMatches ctx)

/-- An observable side effect fired while performing a transition. -/
inductive SMEvent
  | exitHandler (state : String) (handler : Nat)
  | action (a : Nat)
  | entryHandler (state : String) (handler : Nat)
  | callback (key : String) (cb : Nat)
deriving DecidableEq, Repr

/-- Embeds `StateMachine.transition`: scans the current state's edges in
declaration order for the first whose condition and guard clauses accept the
context; on failure appends one failure audit entry ("No valid transition
found") and returns false; on success fires exit handler, action, entry
handler and `(from)_to_(to)` callbacks (reported as events), moves to the
target state and appends one success audit entry. -/
def StateMachine.transition {Γ : Type} (m : StateMachine Γ) (trigger : String)
    (ctx : Option Γ) (user : String) : Bool × StateMachine Γ × List SMEvent :=
  match findEdge ctx ((m.transitions.lookup m.current_state).getD []) with
  | none =>
    (false,
     { m with
         audit_trail := m.audit_trail ++
           [⟨m.current_state, "", trigger, user, false,
             some "No valid transition found"⟩] },
     [])
  | some tr =>
    let old := m.current_state
    let exitEvs := match m.state_exit_handlers.lookup old with
      | some h => [SMEvent.exitHandler old h]
      | none => []
    let actEvs := match tr.action with
      | some a => [SMEvent.action a]
      | none => []
    let entryEvs := match m.state_entry_handlers.lookup tr.to_state with
      | some h => [SMEvent.entryHandler tr.to_state h]
      | none => []
    let key := old ++ "_to_" ++ tr.to_state
    let cbEvs := ((m.callbacks.lookup key).getD []).map (SMEvent.callback key)
    (true,
     { m with
         current_state := tr.to_state,
         audit_trail := m.audit_trail ++ [⟨old, tr.to_state, trigger, user, true, none⟩] },
     exitEvs ++ actEvs ++ entryEvs ++ cbEvs)

/-! ### Claim C7 -/

/-- The spec's example machine: states INITIAL, RUNNING, DONE; one unguarded
transition INITIAL→RUNNING; initial state INITIAL. -/
def c7Machine : StateMachine Unit :=
  ((((StateMachine.mk0 Unit "INITIAL").define_state "INITIAL" .initial).define_state
      "RUNNING" .intermediate).define_state "DONE" .terminal).add_transition
    ⟨"INITIAL", "RUNNING", .normal, none, none, []⟩

/-- The machine after the first (successful) `transition("start")` call. -/
def c7MachineAfter : StateMachine Unit :=
  (c7Machine.transition "start" none "system").2.1

/-- C7: whenever no outgoing edge of the current state matches the context,
`transition` returns false, appends exactly one failure audit entry with
reason "No valid transition found" (sic: the code capitalises the message)
and changes nothing else — no handler, action or callback runs.  In the
spec's example, calling `transition("start")` twice succeeds once (moving
INITIAL→RUNNING) and fails once, leaving exactly two audit entries, one
success and one failure. -/
theorem C7_no_transition_no_side_effects :
    (∀ (Γ : Type) (m : StateMachine Γ) (trigger user : String) (ctx : Option Γ),
      findEdge ctx ((m.transitions.lookup m.current_state).getD []) = none →
      (m.transition trigger ctx user).1 = false ∧
      (m.transition trigger ctx user).2.1 =
        { m with
            audit_trail := m.audit_trail ++
              [⟨m.current_state, "", trigger, user, false,
                some "No valid transition found"⟩] } ∧
      (m.transition trigger ctx user).2.2 = []) ∧
    (c7Machine.transition "start" none "system").1 = true ∧
    c7MachineAfter.current_state = "RUNNING" ∧
    (c7MachineAfter.transition "start" none "system").1 = false ∧
    (c7MachineAfter.transition "start" none "system").2.1.audit_trail.map
        (fun e => e.success) = [true, false] ∧
    (c7MachineAfter.transition "start" none "system").2.1.audit_trail.map
        (fun e => e.error_message)
      = [none, some "No valid transition found"] := by
  refine ⟨?_, rfl, rfl, rfl, rfl, rfl⟩
  intro Γ m trigger user ctx h
  unfold StateMachine.transition
  rw [h]
  exact ⟨rfl, rfl, rfl⟩

/-- Witness for C7's universally quantified part, instantiated at the
example machine sitting in RUNNING (which has no outgoing edges). -/
theorem C7_witness :
    (c7MachineAfter.transition "go" none "alice").1 = false ∧
    (c7MachineAfter.transition "go" none "alice").2.2 = [] :=
  ⟨(C7_no_transition_no_side_effects.1 Unit c7MachineAfter "go" "alice" none rfl).1,
   (C7_no_transition_no_side_effects.1 Unit c7MachineAfter "go" "alice" none rfl).2.2⟩

/-! ### Claim C8 -/

/-- One mutating operation on a state machine (the API calls the claim
ranges over). -/
inductive SMOp (Γ : Type)
  | defineState (s : String) (ty : StateType)
  | addTransition (t : StateTransition Γ)
  | doTransition (trigger : String) (ctx : Option Γ) (user : String)

/-- Applies one operation. -/
def applyOp {Γ : Type} (m : StateMachine Γ) : SMOp Γ → StateMachine Γ
  | .defineState s ty => m.define_state s ty
  | .addTransition t => m.add_transition t
  | .doTransition trig ctx u => (m.transition trig ctx u).2.1

/-- Applies a sequence of operations in order. -/
def runOps {Γ : Type} (m : StateMachine Γ) (ops : List (SMOp Γ)) : StateMachine Γ :=
  ops.foldl applyOp m

/-- Whether `s` is a declared state of `m`. -/
def declaredB {Γ : Type} (m : StateMachine Γ) (s : String) : Bool :=
  (m.states.lookup s).isSome

/-- Whether every stored edge of `m` has both endpoints declared. -/
def edgesDeclaredB {Γ : Type} (m : StateMachine Γ) : Bool :=
  m.transitions.all fun p =>
    p.2.all fun t => declaredB m t.from_state && declaredB m t.to_state

/-- Whether the current state of `m` is declared. -/
def currentDeclaredB {Γ : Type} (m : StateMachine Γ) : Bool :=
  declaredB m m.current_state

theorem declaredB_define_mono {Γ : Type} {m : StateMachine Γ} {x : String}
    (s : String) (ty : StateType) (h : declaredB m x = true) :
    declaredB (m.define_state s ty) x = true := by
  have hg : declaredB (m.define_state s ty) x
      = ((assocSet m.states s ty).lookup x).isSome := rfl
  rw [hg]
  unfold declaredB at h
  by_cases hx : x = s
  · subst hx
    rw [assocSet_lookup]
    rfl
  · rw [assocSet_lookup_ne _ _ _ _ hx]
    exact h

theorem edges_declared_of_mem {Γ : Type} {m : StateMachine Γ}
    {s : String} {tr : StateTransition Γ}
    (hed : edgesDeclaredB m = true)
    (htr : tr ∈ (m.transitions.lookup s).getD []) :
    declaredB m tr.from_state = true ∧ declaredB m tr.to_state = true := by
  cases hl : m.transitions.lookup s with
  | none =>
    rw [hl] at htr
    simp at htr
  | some l0 =>
    rw [hl] at htr
    simp only [Option.getD_some] at htr
    have hmem : (s, l0) ∈ m.transitions := lookup_mem hl
    unfold edgesDeclaredB at hed
    rw [List.all_eq_true] at hed
    have h1 := hed _ hmem
    rw [List.all_eq_true] at h1
    have h2 := h1 _ htr
    rw [Bool.and_eq_true] at h2
    exact h2

theorem assocSet_mem {α : Type} {l : List (String × α)} {k : String} {v : α}
    {x : String × α} (h : x ∈ assocSet l k v) : x = (k, v) ∨ x ∈ l := by
  induction l with
  | nil =>
    simp [assocSet] at h
    exact Or.inl h
  | cons p rest ih =>
    obtain ⟨k0, v0⟩ := p
    by_cases hk : k0 = k
    · rw [assocSet, if_pos hk] at h
      rcases List.mem_cons.mp h with h1 | h1
      · exact Or.inl h1
      · exact Or.inr (List.mem_cons_of_mem _ h1)
    · rw [assocSet, if_neg hk] at h
      rcases List.mem_cons.mp h with h1 | h1
      · exact Or.inr (List.mem_cons.mpr (Or.inl h1))
      · rcases ih h1 with h2 | h2
        · exact Or.inl h2
        · exact Or.inr (List.mem_cons_of_mem _ h2)

theorem applyOp_preserves {Γ : Type} (m : StateMachine Γ) (op : SMOp Γ)
    (hed : edgesDeclaredB m = true) (hcur : currentDeclaredB m = true) :
    edgesDeclaredB (applyOp m op) = true ∧ currentDeclaredB (applyOp m op) = true := by
  cases op with
  | defineState s ty =>
    constructor
    · show edgesDeclaredB (m.define_state s ty) = true
      have hg : edgesDeclaredB (m.define_state s ty)
          = m.transitions.all fun p =>
              p.2.all fun t =>
                declaredB (m.define_state s ty) t.from_state &&
                declaredB (m.define_state s ty) t.to_state := rfl
      rw [hg]
      unfold edgesDeclaredB at hed
      rw [List.all_eq_true] at hed ⊢
      intro p hp
      have h1 := hed p hp
      rw [List.all_eq_true] at h1 ⊢
      intro t ht
      have h2 := h1 t ht
      rw [Bool.and_eq_true] at h2 ⊢
      exact ⟨declaredB_define_mono s ty h2.1, declaredB_define_mono s ty h2.2⟩
    · show currentDeclaredB (m.define_state s ty) = true
      unfold currentDeclaredB at hcur ⊢
      exact declaredB_define_mono s ty hcur
  | addTransition t =>
    show edgesDeclaredB (m.add_transition t) = true ∧
         currentDeclaredB (m.add_transition t) = true
    unfold StateMachine.add_transition
    by_cases hc : ((m.states.lookup t.from_state).isSome = true ∧
        (m.states.lookup t.to_state).isSome = true)
    · rw [if_pos hc]
      constructor
      · have hg : edgesDeclaredB
            { m with
                transitions := assocSet m.transitions t.from_state
                  (((m.transitions.lookup t.from_state).getD []) ++ [t]) }
            = (assocSet m.transitions t.from_state
                (((m.transitions.lookup t.from_state).getD []) ++ [t])).all
                fun p => p.2.all fun tr =>
                  declaredB m tr.from_state && declaredB m tr.to_state := rfl
        rw [hg]
        rw [List.all_eq_true]
        intro p hp
        rcases assocSet_mem hp with h1 | h1
        · subst h1
          rw [List.all_eq_true]
          intro tr htr
          rcases List.mem_append.mp htr with h2 | h2
          · cases hl : m.transitions.lookup t.from_state with
            | none =>
              rw [hl] at h2
              simp at h2
            | some l0 =>
              rw [hl] at h2
              simp only [Option.getD_some] at h2
              unfold edgesDeclaredB at hed
              rw [List.all_eq_true] at hed
              have h4 := hed _ (lookup_mem hl)
              rw [List.all_eq_true] at h4
              exact h4 tr h2
          · have h3 : tr = t := by simpa using h2
            subst h3
            rw [Bool.and_eq_true]
            exact ⟨hc.1, hc.2⟩
        · unfold edgesDeclaredB at hed
          rw [List.all_eq_true] at hed
          exact hed p h1
      · exact hcur
    · rw [if_neg hc]
      exact ⟨hed, hcur⟩
  | doTransition trig ctx u =>
    show edgesDeclaredB (m.transition trig ctx u).2.1 = true ∧
         currentDeclaredB (m.transition trig ctx u).2.1 = true
    cases hf : findEdge ctx ((m.transitions.lookup m.current_state).getD []) with
    | none =>
      simp only [StateMachine.transition, hf]
      exact ⟨hed, hcur⟩
    | some tr =>
      simp only [StateMachine.transition, hf]
      have htr : tr ∈ (m.transitions.lookup m.current_state).getD [] :=
        List.mem_of_find?_eq_some hf
      have hdecl := edges_declared_of_mem hed htr
      exact ⟨hed, hdecl.2⟩

/-- C8 (amended): construction alone does not declare the initial state (see
the counterexample); but once the current state is declared, it remains
declared across any sequence of `define_state`, `add_transition` and
`transition` calls (states are never removed and every stored edge has both
endpoints declared); and a transition only succeeds when a stored outgoing
edge of the current state matches the context — its condition and all its
guard clauses accept — in which case the machine moves to that edge's
(declared) target state. -/
theorem C8_current_state_invariant :
    (∀ (Γ : Type) (m : StateMachine Γ) (ops : List (SMOp Γ)),
      edgesDeclaredB m = true → currentDeclaredB m = true →
      edgesDeclaredB (runOps m ops) = true ∧ currentDeclaredB (runOps m ops) = true) ∧
    (∀ (Γ : Type) (m : StateMachine Γ) (trig user : String) (ctx : Option Γ),
      (m.transition trig ctx user).1 = true →
      ∃ tr, tr ∈ (m.transitions.lookup m.current_state).getD [] ∧
        edgeMatches ctx tr = true ∧
        (m.transition trig ctx user).2.1.current_state = tr.to_state ∧
        (edgesDeclaredB m = true → declaredB m tr.to_state = true)) := by
  constructor
  · intro Γ m ops
    induction ops generalizing m with
    | nil => intro h1 h2; exact ⟨h1, h2⟩
    | cons op rest ih =>
      intro h1 h2
      have h3 := applyOp_preserves m op h1 h2
      exact ih (applyOp m op) h3.1 h3.2
  · intro Γ m trig user ctx hsucc
    cases hf : findEdge ctx ((m.transitions.lookup m.current_state).getD []) with
    | none =>
      rw [show (m.transition trig ctx user).1
            = (match findEdge ctx ((m.transitions.lookup m.current_state).getD []) with
               | none => false
               | some _ => true) from by
          unfold StateMachine.transition
          cases findEdge ctx ((m.transitions.lookup m.current_state).getD []) <;> rfl] at hsucc
      rw [hf] at hsucc
      simp at hsucc
    | some tr =>
      have hcs : (m.transition trig ctx user).2.1.current_state = tr.to_state := by
        unfold StateMachine.transition
        rw [hf]
      refine ⟨tr, List.mem_of_find?_eq_some hf, List.find?_some hf, hcs, ?_⟩
      intro hed
      exact (edges_declared_of_mem hed (List.mem_of_find?_eq_some hf)).2

/-- Counterexample to C8 as stated: immediately after construction the
current state is NOT a declared state — `__init__` records the initial state
token without adding it to `states`, which starts empty. -/
theorem C8_counterexample :
    (StateMachine.mk0 Unit "INITIAL").current_state = "INITIAL" ∧
    (StateMachine.mk0 Unit "INITIAL").states = [] ∧
    currentDeclaredB (StateMachine.mk0 Unit "INITIAL") = false := by
  exact ⟨rfl, rfl, rfl⟩

/-- Witness for the amended C8 at the example machine: its current state is
declared and stays declared across a successful transition. -/
theorem C8_witness :
    currentDeclaredB (runOps c7Machine [SMOp.doTransition "start" none "system"]) = true ∧
    edgesDeclaredB (runOps c7Machine [SMOp.doTransition "start" none "system"]) = true :=
  ⟨(C8_current_state_invariant.1 Unit c7Machine
      [SMOp.doTransition "start" none "system"] rfl rfl).2,
   (C8_current_state_invariant.1 Unit c7Machine
      [SMOp.doTransition "start" none "system"] rfl rfl).1⟩

/-! ### Claim C9 -/

/-- An audit entry with its trigger field blanked (for comparing audit
trails up to the trigger). -/
def eraseTrigger (e : AuditEntry) : AuditEntry :=
  { e with trigger := "" }

/-- C9: the trigger argument never influences edge selection — two
`transition` calls from the same machine state with the same context and
actor but different triggers return the same boolean, reach the same state,
fire the same handlers/actions/callbacks, and produce audit trails that
agree except for the trigger field of the one appended entry, which records
the respective trigger verbatim. -/
theorem C9_trigger_independence (Γ : Type) (m : StateMachine Γ)
    (t1 t2 user : String) (ctx : Option Γ) :
    (m.transition t1 ctx user).1 = (m.transition t2 ctx user).1 ∧
    (m.transition t1 ctx user).2.1.current_state =
      (m.transition t2 ctx user).2.1.current_state ∧
    (m.transition t1 ctx user).2.1.states = (m.transition t2 ctx user).2.1.states ∧
    (m.transition t1 ctx user).2.2 = (m.transition t2 ctx user).2.2 ∧
    ((m.transition t1 ctx user).2.1.audit_trail.map eraseTrigger =
      (m.transition t2 ctx user).2.1.audit_trail.map eraseTrigger) ∧
    (m.transition t1 ctx user).2.1.audit_trail.length = m.audit_trail.length + 1 ∧
    ((m.transition t1 ctx user).2.1.audit_trail.getLast?).map (fun e => e.trigger)
      = some t1 := by
  unfold StateMachine.transition
  cases hf : findEdge ctx ((m.transitions.lookup m.current_state).getD []) with
  | none =>
    refine ⟨rfl, rfl, rfl, rfl, ?_, ?_, ?_⟩
    · simp [eraseTrigger]
    · simp
    · simp [List.getLast?_concat]
  | some tr =>
    refine ⟨rfl, rfl, rfl, rfl, ?_, ?_, ?_⟩
    · simp [eraseTrigger]
    · simp
    · simp [List.getLast?_concat]

/-! ### workflow_manager.py : Workflow, DependencyResolver, TaskScheduler -/

/-- Embeds `TaskStatus` (workflow_manager.py). -/
inductive TaskStatus
  | pending | ready | running | completed | failed | skipped | blocked
deriving DecidableEq, Repr

/-- Embeds the `Task` dataclass restricted to the fields the dependency and
scheduling logic reads (name, priority, dependency set — modelled as a list
in iteration order — and status).  The action callable, retry counters,
timeout and timestamps are opaque to the claims under verification. -/
structure Task where
  name : String
  priority : Nat
  dependencies : List String
  status : TaskStatus
deriving DecidableEq, Repr

/-- Embeds `Workflow` restricted to its ordered task table
(`tasks : Dict[str, Task]`, insertion-ordered). -/
structure Workflow where
  tasks : List (String × Task)
deriving DecidableEq, Repr

/-- The dependency graph built by `DependencyResolver.build_graph`, read back
through `self.dependency_graph.get(node, set())`: a task's declared
dependency list, empty for unknown nodes. -/
def depsOf (wf : Workflow) (n : String) : List String :=
  match wf.tasks.lookup n with
  | some t => t.dependencies
  | none => []

/-- The edge relation of the dependency graph: `Edge wf a b` iff `b` is a
declared dependency of task `a`. -/
def Edge (wf : Workflow) (a b : String) : Prop :=
  b ∈ depsOf wf a

/-- A workflow's dependency relation is acyclic: no node reaches itself
through one or more edges. -/
def Acyclic (wf : Workflow) : Prop :=
  ∀ n, ¬ Relation.TransGen (Edge wf) n n

/-- Every node the DFS can ever touch: all task ids and all declared
dependency ids. -/
def allNodes (wf : Workflow) : List String :=
  wf.tasks.map Prod.fst ++ wf.tasks.foldr (fun p acc => p.2.dependencies ++ acc) []

/-- The mutable state of `_has_cycle`'s DFS: the `visited` set and the
`rec_stack` (gray) set, both modelled as lists (newest first). -/
structure DfsSt where
  visited : List String
  gray : List String
deriving DecidableEq, Repr

/-- The neighbour loop of `_has_cycle.dfs`: for each neighbour, recurse when
unvisited (via `recur`), report a cycle when the neighbour is on the
recursion stack, skip otherwise; when the loop completes, remove the node
from the recursion stack and report no cycle. -/
def dfsGo (recur : String → DfsSt → Option (Bool × DfsSt)) (node : String) :
    List String → DfsSt → Option (Bool × DfsSt)
  | [], st => some (false, ⟨st.visited, st.gray.erase node⟩)
  | nb :: rest, st =>
    if nb ∈ st.visited then
      if nb ∈ st.gray then some (true, st)
      else dfsGo recur node rest st
    else
      match recur nb st with
      | none => none
      | some (true, st') => some (true, st')
      | some (false, st') => dfsGo recur node rest st'

/-- Embeds `_has_cycle.dfs`: mark the node visited and gray, then run the
neighbour loop.  `fuel` bounds the recursion depth (Python has no such bound;
any fuel of at least the number of nodes plus one is shown sufficient). -/
def dfsVisit (wf : Workflow) : Nat → String → DfsSt → Option (Bool × DfsSt)
  | 0, _, _ => none
  | fuel + 1, node, st =>
    dfsGo (fun nb st2 => dfsVisit wf fuel nb st2) node (depsOf wf node)
      ⟨node :: st.visited, node :: st.gray⟩

/-- Depth fuel sufficient for every DFS run on this workflow. -/
def dfsFuel (wf : Workflow) : Nat :=
  (allNodes wf).length + 1

/-- Embeds the outer loop of `_has_cycle`: start a DFS from every not yet
visited task id. -/
def hasCycleLoop (wf : Workflow) : List String → DfsSt → Option Bool
  | [], _ => some false
  | tid :: rest, st =>
    if tid ∈ st.visited then hasCycleLoop wf rest st
    else
      match dfsVisit wf (dfsFuel wf) tid st with
      | none => none
      | some (true, _) => some true
      | some (false, st') => hasCycleLoop wf rest st'

/-- Embeds `DependencyResolver._has_cycle` (with explicit fuel, shown to
always return a value). -/
def hasCycleOpt (wf : Workflow) : Option Bool :=
  hasCycleLoop wf (wf.tasks.map Prod.fst) ⟨[], []⟩

/-- The boolean result of `_has_cycle`. -/
def has_cycle (wf : Workflow) : Bool :=
  (hasCycleOpt wf).getD true

/-- Embeds `DependencyResolver.build_graph`: true iff no cycle. -/
def build_graph (wf : Workflow) : Bool :=
  ! has_cycle wf

/-- Embeds `WorkflowManager.validate_workflow`: requires a non-empty task
table, an acyclic graph, and that every referenced dependency id exists in
the same workflow. -/
def validate_workflow (wf : Workflow) : Bool :=
  if wf.tasks.isEmpty then false
  else if ! build_graph wf then false
  else wf.tasks.all fun p => p.2.dependencies.all fun d => (wf.tasks.lookup d).isSome

/-- Stable insertion (ascending by task priority) used to model Python's
stable `sorted(tasks.values(), key=lambda t: t.priority)`. -/
def insertAsc (p : String × Task) : List (String × Task) → List (String × Task)
  | [] => [p]
  | q :: rest =>
    if p.2.priority < q.2.priority then p :: q :: rest else q :: insertAsc p rest

/-- Embeds `TaskScheduler.schedule`: the PENDING tasks sorted by ascending
priority (stable), returned as the execution order.  (The READY status
mutation is not modelled; only the returned order matters to the claims.) -/
def schedule (wf : Workflow) : List String :=
  ((wf.tasks.foldl (fun acc q => insertAsc q acc) []).filter
    (fun p => p.2.status == TaskStatus.pending)).map Prod.fst

/-- Embeds `WorkflowManager.get_execution_plan`: `None` for an invalid
workflow, otherwise the scheduler's order. -/
def get_execution_plan (wf : Workflow) : Option (List String) :=
  if validate_workflow wf then some (schedule wf) else none

/-! ### workflow_manager.py : get_critical_path -/

/-- The dependency loop of `calculate_length`: compute each dependency's
length via `recur` (threading the memo) and keep the running maximum. -/
def calcFold
    (recur : String → List (String × Nat) → Option (Nat × List (String × Nat))) :
    List String → Nat → List (String × Nat) → Option (Nat × List (String × Nat))
  | [], acc, memo => some (acc, memo)
  | d :: rest, acc, memo =>
    match recur d memo with
    | none => none
    | some (v, memo') => calcFold recur rest (max acc v) memo'

/-- Embeds `get_critical_path.calculate_length`: memoized recursion with no
cycle guard; `path_lengths[task_id] = max_dep_length + 1` is stored after the
dependency loop.  `fuel` bounds the recursion depth. -/
def calcLen (wf : Workflow) : Nat → String → List (String × Nat) →
    Option (Nat × List (String × Nat))
  | 0, _, _ => none
  | fuel + 1, tid, memo =>
    match memo.lookup tid with
    | some v => some (v, memo)
    | none =>
      match calcFold (fun d mm => calcLen wf fuel d mm) (depsOf wf tid) 0 memo with
      | none => none
      | some (maxd, memo') => some (maxd + 1, assocSet memo' tid (maxd + 1))

/-- Embeds the `for task_id in workflow.tasks: calculate_length(task_id)`
pass: the memo (`path_lengths`, insertion-ordered) after computing every
task. -/
def lengthsLoop (wf : Workflow) : List String → List (String × Nat) →
    Option (List (String × Nat))
  | [], memo => some memo
  | tid :: rest, memo =>
    match calcLen wf (dfsFuel wf) tid memo with
    | none => none
    | some (_, memo') => lengthsLoop wf rest memo'

/-- Stable insertion (descending by length) modelling Python's stable
`sorted(path_lengths.items(), key=lambda x: x[1], reverse=True)`. -/
def insertDesc (p : String × Nat) : List (String × Nat) → List (String × Nat)
  | [] => [p]
  | q :: rest =>
    if q.2 < p.2 then p :: q :: rest else q :: insertDesc p rest

/-- The stable descending sort of the memo items. -/
def sortDesc (l : List (String × Nat)) : List (String × Nat) :=
  l.foldl (fun acc q => insertDesc q acc) []

/-- `max(path_lengths.values())`, 0 when empty. -/
def maxOf (memo : List (String × Nat)) : Nat :=
  (memo.map Prod.snd).foldl max 0

/-- The greedy collection loop: walk the sorted items, taking the first item
of each strictly decreasing length value starting from `current`. -/
def collectP : List (String × Nat) → Nat → List (String × Nat)
  | [], _ => []
  | p :: rest, current =>
    if p.2 = current then p :: collectP rest (current - 1)
    else collectP rest current

/-- Embeds `DependencyResolver.get_critical_path` (fuelled; `none` only when
the memoized recursion runs out of depth, which cannot happen on an acyclic
workflow). -/
def get_critical_path (wf : Workflow) : Option (List String) :=
  match lengthsLoop wf (wf.tasks.map Prod.fst) [] with
  | none => none
  | some memo => some ((collectP (sortDesc memo) (maxOf memo)).map Prod.fst)

/-- The cyclic example workflow: A→B→C→A, each task depending on the prior
one. -/
def cycleWf : Workflow :=
  ⟨[("A", ⟨"A", 5, ["C"], .pending⟩),
    ("B", ⟨"B", 5, ["A"], .pending⟩),
    ("C", ⟨"C", 5, ["B"], .pending⟩)]⟩

/-- The diamond example workflow: A→B, A→C, B→D, C→D. -/
def diamondWf : Workflow :=
  ⟨[("A", ⟨"A", 5, [], .pending⟩),
    ("B", ⟨"B", 5, ["A"], .pending⟩),
    ("C", ⟨"C", 5, ["A"], .pending⟩),
    ("D", ⟨"D", 5, ["B", "C"], .pending⟩)]⟩

/-- The one-task self-loop workflow used for the necessity half of C10. -/
def selfLoopWf : Workflow :=
  ⟨[("A", ⟨"A", 5, ["A"], .pending⟩)]⟩

/-! ### Correctness infrastructure for the DFS cycle check -/

theorem keys_sub_allNodes {wf : Workflow} {n : String}
    (h : n ∈ wf.tasks.map Prod.fst) : n ∈ allNodes wf :=
  List.mem_append_left _ h

theorem mem_foldr_deps {ts : List (String × Task)} {p : String × Task}
    {b : String} (hp : p ∈ ts) (hb : b ∈ p.2.dependencies) :
    b ∈ ts.foldr (fun q acc => q.2.dependencies ++ acc) [] := by
  induction ts with
  | nil => simp at hp
  | cons q rest ih =>
    simp only [List.foldr_cons]
    rcases List.mem_cons.mp hp with h1 | h1
    · subst h1
      exact List.mem_append_left _ hb
    · exact List.mem_append_right _ (ih h1)

theorem deps_sub_allNodes {wf : Workflow} {a b : String}
    (h : b ∈ depsOf wf a) : b ∈ allNodes wf := by
  unfold depsOf at h
  cases hl : wf.tasks.lookup a with
  | none => rw [hl] at h; simp at h
  | some t =>
    rw [hl] at h
    exact List.mem_append_right _ (mem_foldr_deps (lookup_mem hl) h)

theorem edge_src_key {wf : Workflow} {a b : String} (h : Edge wf a b) :
    a ∈ wf.tasks.map Prod.fst := by
  unfold Edge depsOf at h
  cases hl : wf.tasks.lookup a with
  | none => rw [hl] at h; simp at h
  | some t =>
    have := lookup_mem hl
    exact List.mem_map.mpr ⟨(a, t), this, rfl⟩

theorem nodup_sub_length_le {l l' : List String} (h : l.Nodup)
    (hs : ∀ x ∈ l, x ∈ l') : l.length ≤ l'.length := by
  calc l.length = l.toFinset.card := (List.toFinset_card_of_nodup h).symm
    _ ≤ l'.toFinset.card := by
        apply Finset.card_le_card
        intro x hx
        rw [List.mem_toFinset] at hx ⊢
        exact hs x hx
    _ ≤ l'.length := List.toFinset_card_le l'

/-- The gray recursion stack forms a chain: each older entry has an edge to
the entry pushed directly above it. -/
def GrayChain (wf : Workflow) : List String → Prop
  | [] => True
  | [_] => True
  | a :: b :: rest => Edge wf b a ∧ GrayChain wf (b :: rest)

theorem gray_chain_tail {wf : Workflow} {l : List String} {a : String}
    (h : GrayChain wf (a :: l)) : GrayChain wf l := by
  cases l with
  | nil => trivial
  | cons b rest => exact h.2

theorem gray_reach {wf : Workflow} : ∀ (l : List String), GrayChain wf l →
    ∀ a ∈ l, ∀ h0, l.head? = some h0 →
    Relation.ReflTransGen (Edge wf) a h0 := by
  intro l
  induction l with
  | nil => intro _ a ha; simp at ha
  | cons x t ih =>
    intro hc a ha h0 hh
    simp only [List.head?_cons, Option.some.injEq] at hh
    subst hh
    rcases List.mem_cons.mp ha with h1 | h1
    · subst h1; exact Relation.ReflTransGen.refl
    · cases t with
      | nil => simp at h1
      | cons y rest =>
        have hr := ih hc.2 a h1 y rfl
        exact hr.tail hc.1

theorem transGen_of_edge_reflTransGen {wf : Workflow} {a b c : String}
    (h1 : Edge wf a b) (h2 : Relation.ReflTransGen (Edge wf) b c) :
    Relation.TransGen (Edge wf) a c := by
  induction h2 with
  | refl => exact Relation.TransGen.single h1
  | tail h3 h4 ih => exact ih.tail h4

/-- A reverse-topological completion order (newest first): every element's
dependency successors occur strictly later in the list. -/
def TopoOK (wf : Workflow) : List String → Prop
  | [] => True
  | d :: l => (∀ b, Edge wf d b → b ∈ l) ∧ TopoOK wf l

theorem topo_closed {wf : Workflow} : ∀ {l}, TopoOK wf l →
    ∀ {a b}, a ∈ l → Edge wf a b → b ∈ l := by
  intro l
  induction l with
  | nil => intro _ a b ha; simp at ha
  | cons d t ih =>
    intro ht a b ha he
    rcases List.mem_cons.mp ha with h1 | h1
    · subst h1
      exact List.mem_cons_of_mem _ (ht.1 b he)
    · exact List.mem_cons_of_mem _ (ih ht.2 h1 he)

theorem topo_reach {wf : Workflow} {l : List String} (ht : TopoOK wf l)
    {a c : String} (ha : a ∈ l)
    (h : Relation.ReflTransGen (Edge wf) a c) : c ∈ l := by
  induction h with
  | refl => exact ha
  | tail _ h2 ih => exact topo_closed ht ih h2

theorem topo_nocycle {wf : Workflow} : ∀ {l}, TopoOK wf l → l.Nodup →
    ∀ n ∈ l, ¬ Relation.TransGen (Edge wf) n n := by
  intro l
  induction l with
  | nil => intro _ _ n hn; simp at hn
  | cons d t ih =>
    intro ht hnd n hn hcyc
    have hd : d ∉ t := (List.nodup_cons.mp hnd).1
    rcases List.mem_cons.mp hn with h1 | h1
    · subst h1
      obtain ⟨c, h2, h3⟩ := Relation.TransGen.head'_iff.mp hcyc
      have hc : c ∈ t := ht.1 c h2
      exact hd (topo_reach ht.2 hc h3)
    · exact ih ht.2 (List.nodup_cons.mp hnd).2 n h1 hcyc

/-- Position-from-the-end of the first occurrence in a list (a rank strictly
decreasing along dependency edges of a `TopoOK` list). -/
def rankIn : List String → String → Nat
  | [], _ => 0
  | d :: l, n => if d = n then l.length else rankIn l n

theorem rankIn_lt_length {l : List String} {n : String} (h : n ∈ l) :
    rankIn l n < l.length := by
  induction l with
  | nil => simp at h
  | cons d t ih =>
    by_cases hd : d = n
    · simp [rankIn, hd]
    · rcases List.mem_cons.mp h with h1 | h1
      · exact absurd h1.symm hd
      · simp only [rankIn, if_neg hd, List.length_cons]
        exact Nat.lt_succ_of_lt (ih h1)

theorem rank_edge_lt {wf : Workflow} : ∀ {l}, TopoOK wf l → l.Nodup →
    ∀ {n b}, n ∈ l → Edge wf n b →
    b ∈ l ∧ rankIn l b < rankIn l n := by
  intro l
  induction l with
  | nil => intro _ _ n b hn; simp at hn
  | cons d t ih =>
    intro ht hnd n b hn he
    have hd : d ∉ t := (List.nodup_cons.mp hnd).1
    rcases List.mem_cons.mp hn with h1 | h1
    · subst h1
      have hb : b ∈ t := ht.1 b he
      have hbd : n ≠ b := fun hh => hd (hh ▸ hb)
      refine ⟨List.mem_cons_of_mem _ hb, ?_⟩
      simp only [rankIn, if_pos rfl, if_neg hbd]
      exact rankIn_lt_length hb
    · have h2 := ih ht.2 (List.nodup_cons.mp hnd).2 h1 he
      have hb : b ∈ t := h2.1
      have hbd : d ≠ b := fun hh => hd (hh ▸ hb)
      have hdn : d ≠ n := fun hh => hd (hh ▸ h1)
      refine ⟨List.mem_cons_of_mem _ hb, ?_⟩
      simp only [rankIn, if_neg hbd, if_neg hdn]
      exact h2.2

/-- Invariant of a DFS state: `visited` is a duplicate-free subset of the
graph's node set, the gray stack is a duplicate-free subset of `visited`,
and the black nodes (visited minus gray) carry a reverse-topological
completion order (the ghost list `done`). -/
def StInv (wf : Workflow) (st : DfsSt) : Prop :=
  st.visited.Nodup ∧
  (∀ x ∈ st.visited, x ∈ allNodes wf) ∧
  (∀ x ∈ st.gray, x ∈ st.visited) ∧
  st.gray.Nodup ∧
  ∃ done : List String, TopoOK wf done ∧ done.Nodup ∧
    ∀ x, x ∈ done ↔ (x ∈ st.visited ∧ x ∉ st.gray)

/-- Specification of `dfsVisit` at a given fuel: on a fresh node with enough
fuel it returns; `true` implies a real cycle exists; `false` restores the
gray stack, grows `visited` by at least the node, and preserves the
invariant. -/
def VisitSpec (wf : Workflow) (fuel : Nat) : Prop :=
  ∀ (node : String) (st : DfsSt),
    StInv wf st →
    GrayChain wf st.gray →
    node ∉ st.visited →
    node ∈ allNodes wf →
    (∀ g, st.gray.head? = some g → Edge wf g node) →
    (allNodes wf).length + 1 ≤ st.visited.length + fuel →
    ∃ b st', dfsVisit wf fuel node st = some (b, st') ∧
      (b = true → ∃ m, Relation.TransGen (Edge wf) m m) ∧
      (b = false →
        st'.gray = st.gray ∧
        StInv wf st' ∧
        node ∈ st'.visited ∧
        (∀ x ∈ st.visited, x ∈ st'.visited) ∧
        st.visited.length < st'.visited.length)

theorem dfsGo_spec {wf : Workflow} {fuel : Nat} (hvisit : VisitSpec wf fuel) :
    ∀ (nbs processed : List String) (node : String) (st : DfsSt)
      (gray0 : List String),
    depsOf wf node = processed ++ nbs →
    (∀ d ∈ processed, d ∈ st.visited ∧ d ∉ st.gray) →
    st.gray = node :: gray0 →
    node ∈ st.visited →
    StInv wf st →
    GrayChain wf st.gray →
    (allNodes wf).length + 1 ≤ st.visited.length + fuel →
    ∃ b st', dfsGo (fun nb s => dfsVisit wf fuel nb s) node nbs st = some (b, st') ∧
      (b = true → ∃ m, Relation.TransGen (Edge wf) m m) ∧
      (b = false →
        st'.gray = gray0 ∧
        StInv wf st' ∧
        node ∈ st'.visited ∧
        (∀ x ∈ st.visited, x ∈ st'.visited) ∧
        st.visited.length ≤ st'.visited.length) := by
  intro nbs
  induction nbs with
  | nil =>
    intro processed node st gray0 hdec hproc hgray hnode hinv hchain hfuel
    obtain ⟨hvnd, hvall, hgsub, hgnd, done, hT, hDnd, hDiff⟩ := hinv
    have hgnd0 : node ∉ gray0 ∧ gray0.Nodup := by
      rw [hgray] at hgnd
      exact List.nodup_cons.mp hgnd
    refine ⟨false, ⟨st.visited, st.gray.erase node⟩, rfl, by simp, ?_⟩
    intro _
    have herase : st.gray.erase node = gray0 := by
      rw [hgray]
      exact List.erase_cons_head node gray0
    refine ⟨herase, ?_, hnode, fun x hx => hx, le_refl _⟩
    rw [herase]
    refine ⟨hvnd, hvall, ?_, hgnd0.2, node :: done, ?_, ?_, ?_⟩
    · intro x hx
      apply hgsub
      rw [hgray]
      exact List.mem_cons_of_mem _ hx
    · refine ⟨?_, hT⟩
      intro b hb
      have hbp : b ∈ processed := by
        have : b ∈ depsOf wf node := hb
        rw [hdec, List.append_nil] at this
        exact this
      have := hproc b hbp
      exact (hDiff b).mpr this
    · refine List.nodup_cons.mpr ⟨?_, hDnd⟩
      intro hc
      have := ((hDiff node).mp hc).2
      apply this
      rw [hgray]
      exact List.mem_cons_self _ _
    · intro x
      constructor
      · intro hx
        rcases List.mem_cons.mp hx with h1 | h1
        · subst h1
          exact ⟨hnode, hgnd0.1⟩
        · have := (hDiff x).mp h1
          refine ⟨this.1, ?_⟩
          intro hc
          apply this.2
          rw [hgray]
          exact List.mem_cons_of_mem _ hc
      · intro ⟨hx1, hx2⟩
        by_cases hxn : x = node
        · subst hxn
          exact List.mem_cons_self _ _
        · refine List.mem_cons_of_mem _ ((hDiff x).mpr ⟨hx1, ?_⟩)
          intro hc
          rw [hgray] at hc
          rcases List.mem_cons.mp hc with h1 | h1
          · exact hxn h1
          · exact hx2 h1
  | cons nb rest ih =>
    intro processed node st gray0 hdec hproc hgray hnode hinv hchain hfuel
    have hnbdep : nb ∈ depsOf wf node := by
      rw [hdec]
      exact List.mem_append_right _ (List.mem_cons_self _ _)
    have hdec' : depsOf wf node = (processed ++ [nb]) ++ rest := by
      rw [hdec, List.append_assoc]
      rfl
    simp only [dfsGo]
    by_cases hv : nb ∈ st.visited
    · rw [if_pos hv]
      by_cases hg : nb ∈ st.gray
      · rw [if_pos hg]
        refine ⟨true, st, rfl, ?_, by simp⟩
        intro _
        have hreach : Relation.ReflTransGen (Edge wf) nb node := by
          apply gray_reach st.gray hchain nb hg node
          rw [hgray]
          rfl
        exact ⟨node, transGen_of_edge_reflTransGen hnbdep hreach⟩
      · rw [if_neg hg]
        have hproc' : ∀ d ∈ processed ++ [nb], d ∈ st.visited ∧ d ∉ st.gray := by
          intro d hd
          rcases List.mem_append.mp hd with h1 | h1
          · exact hproc d h1
          · have : d = nb := by simpa using h1
            subst this
            exact ⟨hv, hg⟩
        exact ih (processed ++ [nb]) node st gray0 hdec' hproc' hgray hnode
          hinv hchain hfuel
    · rw [if_neg hv]
      have hnbg : nb ∉ st.gray := fun hc => hv (hinv.2.2.1 nb hc)
      have hhead : ∀ g, st.gray.head? = some g → Edge wf g nb := by
        intro g hgg
        rw [hgray] at hgg
        simp only [List.head?_cons, Option.some.injEq] at hgg
        subst hgg
        exact hnbdep
      obtain ⟨b1, st1, heq1, hcyc1, hfalse1⟩ :=
        hvisit nb st hinv hchain hv (deps_sub_allNodes hnbdep) hhead hfuel
      rw [heq1]
      cases b1 with
      | true =>
        exact ⟨true, st1, rfl, fun _ => hcyc1 rfl, by simp⟩
      | false =>
        obtain ⟨hg1, hinv1, hnb1, hmono1, hlen1⟩ := hfalse1 rfl
        have hgray1 : st1.gray = node :: gray0 := by rw [hg1, hgray]
        have hproc1 : ∀ d ∈ processed ++ [nb],
            d ∈ st1.visited ∧ d ∉ st1.gray := by
          intro d hd
          rcases List.mem_append.mp hd with h1 | h1
          · have := hproc d h1
            refine ⟨hmono1 d this.1, ?_⟩
            rw [hg1]
            exact this.2
          · have : d = nb := by simpa using h1
            subst this
            refine ⟨hnb1, ?_⟩
            rw [hg1]
            exact hnbg
        have hchain1 : GrayChain wf st1.gray := by
          rw [hg1]
          exact hchain
        have hfuel1 : (allNodes wf).length + 1 ≤ st1.visited.length + fuel := by
          omega
        obtain ⟨b2, st2, heq2, hcyc2, hfalse2⟩ :=
          ih (processed ++ [nb]) node st1 gray0 hdec' hproc1 hgray1
            (hmono1 node hnode) hinv1 hchain1 hfuel1
        refine ⟨b2, st2, heq2, hcyc2, ?_⟩
        intro hb2
        obtain ⟨a1, a2, a3, a4, a5⟩ := hfalse2 hb2
        exact ⟨a1, a2, a3, fun x hx => a4 x (hmono1 x hx), by omega⟩

theorem dfsVisit_spec (wf : Workflow) : ∀ fuel, VisitSpec wf fuel := by
  intro fuel
  induction fuel with
  | zero =>
    intro node st hinv _ hnv _ _ hfuel
    exfalso
    have := nodup_sub_length_le hinv.1 hinv.2.1
    omega
  | succ fuel ih =>
    intro node st hinv hchain hnv hall hhead hfuel
    obtain ⟨hvnd, hvall, hgsub, hgnd, done, hT, hDnd, hDiff⟩ := hinv
    have hng : node ∉ st.gray := fun hc => hnv (hgsub node hc)
    have hinv1 : StInv wf ⟨node :: st.visited, node :: st.gray⟩ := by
      refine ⟨List.nodup_cons.mpr ⟨hnv, hvnd⟩, ?_, ?_,
        List.nodup_cons.mpr ⟨hng, hgnd⟩, done, hT, hDnd, ?_⟩
      · intro x hx
        rcases List.mem_cons.mp hx with h1 | h1
        · subst h1; exact hall
        · exact hvall x h1
      · intro x hx
        rcases List.mem_cons.mp hx with h1 | h1
        · subst h1; exact List.mem_cons_self _ _
        · exact List.mem_cons_of_mem _ (hgsub x h1)
      · intro x
        constructor
        · intro hx
          have := (hDiff x).mp hx
          have hxn : x ≠ node := fun hh => hnv (hh ▸ this.1)
          refine ⟨List.mem_cons_of_mem _ this.1, ?_⟩
          intro hc
          rcases List.mem_cons.mp hc with h1 | h1
          · exact hxn h1
          · exact this.2 h1
        · intro ⟨hx1, hx2⟩
          have hxn : x ≠ node := fun hh => hx2 (hh ▸ List.mem_cons_self _ _)
          rcases List.mem_cons.mp hx1 with h1 | h1
          · exact absurd h1 hxn
          · refine (hDiff x).mpr ⟨h1, ?_⟩
            intro hc
            exact hx2 (List.mem_cons_of_mem _ hc)
    have hchain1 : GrayChain wf (node :: st.gray) := by
      cases hgg : st.gray with
      | nil => trivial
      | cons g r =>
        refine ⟨?_, ?_⟩
        · apply hhead
          rw [hgg]
          rfl
        · rw [hgg] at hchain
          exact hchain
    have hfuel1 : (allNodes wf).length + 1 ≤
        (DfsSt.mk (node :: st.visited) (node :: st.gray)).visited.length + fuel := by
      simp only [List.length_cons]
      omega
    obtain ⟨b, st', heq, hcyc, hfalse⟩ :=
      dfsGo_spec ih (depsOf wf node) [] node
        ⟨node :: st.visited, node :: st.gray⟩ st.gray rfl (by simp) rfl
        (List.mem_cons_self _ _) hinv1 hchain1 hfuel1
    refine ⟨b, st', heq, hcyc, ?_⟩
    intro hb
    obtain ⟨hg', hinv', hn', hmono', hlen'⟩ := hfalse hb
    refine ⟨hg', hinv', hn', ?_, ?_⟩
    · intro x hx
      exact hmono' x (List.mem_cons_of_mem _ hx)
    · have : (DfsSt.mk (node :: st.visited) (node :: st.gray)).visited.length
          = st.visited.length + 1 := by simp
      omega

theorem hasCycleLoop_spec (wf : Workflow) : ∀ (tids : List String) (st : DfsSt),
    StInv wf st → st.gray = [] →
    (∀ t ∈ tids, t ∈ allNodes wf) →
    ∃ b, hasCycleLoop wf tids st = some b ∧
      (b = true → ∃ m, Relation.TransGen (Edge wf) m m) ∧
      (b = false → ∃ done, TopoOK wf done ∧ done.Nodup ∧
        (∀ x ∈ done, x ∈ allNodes wf) ∧
        (∀ t ∈ tids, t ∈ done) ∧ (∀ x ∈ st.visited, x ∈ done)) := by
  intro tids
  induction tids with
  | nil =>
    intro st hinv hgray _
    refine ⟨false, rfl, by simp, ?_⟩
    intro _
    obtain ⟨_, hvall, _, _, done, hT, hDnd, hDiff⟩ := hinv
    refine ⟨done, hT, hDnd, ?_, by simp, ?_⟩
    · intro x hx
      exact hvall x ((hDiff x).mp hx).1
    · intro x hx
      refine (hDiff x).mpr ⟨hx, ?_⟩
      rw [hgray]
      simp
  | cons tid rest ih =>
    intro st hinv hgray hall
    simp only [hasCycleLoop]
    by_cases hv : tid ∈ st.visited
    · rw [if_pos hv]
      obtain ⟨b, heq, hc, hf⟩ := ih st hinv hgray
        (fun t ht => hall t (List.mem_cons_of_mem _ ht))
      refine ⟨b, heq, hc, ?_⟩
      intro hb
      obtain ⟨done, h1, h2, h3, h4, h5⟩ := hf hb
      refine ⟨done, h1, h2, h3, ?_, h5⟩
      intro t ht
      rcases List.mem_cons.mp ht with he | he
      · subst he
        exact h5 t hv
      · exact h4 t he
    · rw [if_neg hv]
      obtain ⟨b1, st1, heq1, hcyc1, hfalse1⟩ :=
        dfsVisit_spec wf (dfsFuel wf) tid st hinv
          (by rw [hgray]; trivial) hv (hall tid (List.mem_cons_self _ _))
          (by rw [hgray]; intro g hg; simp at hg)
          (by unfold dfsFuel; omega)
      rw [heq1]
      cases b1 with
      | true => exact ⟨true, rfl, fun _ => hcyc1 rfl, by simp⟩
      | false =>
        obtain ⟨hg1, hinv1, htid1, hmono1, _⟩ := hfalse1 rfl
        obtain ⟨b2, heq2, hc2, hf2⟩ := ih st1 hinv1 (by rw [hg1, hgray])
          (fun t ht => hall t (List.mem_cons_of_mem _ ht))
        refine ⟨b2, heq2, hc2, ?_⟩
        intro hb2
        obtain ⟨done, h1, h2, h3, h4, h5⟩ := hf2 hb2
        refine ⟨done, h1, h2, h3, ?_, fun x hx => h5 x (hmono1 x hx)⟩
        intro t ht
        rcases List.mem_cons.mp ht with he | he
        · subst he
          exact h5 t htid1
        · exact h4 t he

theorem stInv_empty (wf : Workflow) : StInv wf ⟨[], []⟩ := by
  refine ⟨List.nodup_nil, by simp, by simp, List.nodup_nil, [], trivial,
    List.nodup_nil, ?_⟩
  intro x
  simp

theorem has_cycle_correct (wf : Workflow) :
    hasCycleOpt wf = some (has_cycle wf) ∧
    (has_cycle wf = false ↔ Acyclic wf) := by
  obtain ⟨b, heq, hc, hf⟩ := hasCycleLoop_spec wf (wf.tasks.map Prod.fst)
    ⟨[], []⟩ (stInv_empty wf) rfl (fun t ht => keys_sub_allNodes ht)
  have hbc : has_cycle wf = b := by
    unfold has_cycle hasCycleOpt
    rw [heq]
    rfl
  have hopt : hasCycleOpt wf = some b := heq
  constructor
  · rw [hbc]
    exact hopt
  · rw [hbc]
    constructor
    · intro hbf
      obtain ⟨done, h1, h2, _, h4, _⟩ := hf hbf
      intro n hcyc
      obtain ⟨c, hnc, _⟩ := Relation.TransGen.head'_iff.mp hcyc
      exact topo_nocycle h1 h2 n (h4 n (edge_src_key hnc)) hcyc
    · intro hA
      cases hb : b with
      | false => rfl
      | true =>
        exfalso
        obtain ⟨m, hm⟩ := hc hb
        exact hA m hm

theorem acyclic_topo {wf : Workflow} (hA : Acyclic wf) :
    ∃ done, TopoOK wf done ∧ done.Nodup ∧
      (∀ x ∈ done, x ∈ allNodes wf) ∧
      ∀ t ∈ wf.tasks.map Prod.fst, t ∈ done := by
  obtain ⟨b, heq, hc, hf⟩ := hasCycleLoop_spec wf (wf.tasks.map Prod.fst)
    ⟨[], []⟩ (stInv_empty wf) rfl (fun t ht => keys_sub_allNodes ht)
  cases hb : b with
  | true =>
    exfalso
    obtain ⟨m, hm⟩ := hc hb
    exact hA m hm
  | false =>
    obtain ⟨done, h1, h2, h3, h4, _⟩ := hf hb
    exact ⟨done, h1, h2, h3, h4⟩

/-! ### Claim C3 -/

/-- C3: `validate_workflow` returns true if and only if the workflow has at
least one task, its dependency relation is acyclic, and every referenced
dependency id exists in the same workflow; an invalid workflow is never
scheduled (`get_execution_plan` yields nothing).  In particular the cycle
A→B→C→A fails validation and is not scheduled, while the diamond A→B, A→C,
B→D, C→D passes. -/
theorem C3_validate_workflow_iff :
    (∀ wf : Workflow, validate_workflow wf = true ↔
      (wf.tasks ≠ [] ∧ Acyclic wf ∧
        ∀ p ∈ wf.tasks, ∀ d ∈ p.2.dependencies,
          (wf.tasks.lookup d).isSome = true)) ∧
    (∀ wf : Workflow, validate_workflow wf = false →
      get_execution_plan wf = none) ∧
    validate_workflow cycleWf = false ∧
    get_execution_plan cycleWf = none ∧
    validate_workflow diamondWf = true := by
  refine ⟨?_, ?_, rfl, rfl, rfl⟩
  · intro wf
    unfold validate_workflow
    by_cases he : wf.tasks.isEmpty
    · rw [if_pos he]
      have : wf.tasks = [] := List.isEmpty_iff.mp he
      simp [this]
    · rw [if_neg he]
      have hne : wf.tasks ≠ [] := fun hh => he (by rw [hh]; rfl)
      have hiff := (has_cycle_correct wf).2
      by_cases hcy : has_cycle wf
      · have hbg : (! build_graph wf) = true := by
          unfold build_graph
          rw [hcy]
          rfl
        rw [if_pos hbg]
        have hnA : ¬ Acyclic wf := fun hA => by
          have := hiff.mpr hA
          rw [this] at hcy
          exact Bool.false_ne_true hcy
        simp [hnA]
      · have hcf : has_cycle wf = false := Bool.eq_false_iff.mpr hcy
        have hbg : (! build_graph wf) = false := by
          unfold build_graph
          rw [hcf]
          rfl
        rw [hbg]
        simp only [Bool.false_eq_true, if_false]
        have hA : Acyclic wf := hiff.mp hcf
        rw [List.all_eq_true]
        constructor
        · intro h
          refine ⟨hne, hA, ?_⟩
          intro p hp d hd
          have := h p hp
          rw [List.all_eq_true] at this
          exact this d hd
        · intro ⟨_, _, h⟩
          intro p hp
          rw [List.all_eq_true]
          exact h p hp
  · intro wf h
    unfold get_execution_plan
    rw [h]
    rfl

/-- Witness for C3: the cyclic example is refused scheduling, and the
diamond's dependency relation is (provably, via the validated run) acyclic. -/
theorem C3_witness :
    get_execution_plan cycleWf = none ∧ Acyclic diamondWf :=
  ⟨C3_validate_workflow_iff.2.1 cycleWf rfl,
   ((C3_validate_workflow_iff.1 diamondWf).mp rfl).2.1⟩

/-! ### Correctness infrastructure for get_critical_path -/

/-- The memoized length of a node (`path_lengths[d]`, 0 when absent — only
read for keys proven present). -/
def memoVal (memo : List (String × Nat)) (d : String) : Nat :=
  (memo.lookup d).getD 0

/-- Every memo entry satisfies `calculate_length`'s recurrence: all its
dependencies are memoized and its value is one more than their maximum
(with an empty maximum of 0). -/
def MemoGood (wf : Workflow) (memo : List (String × Nat)) : Prop :=
  ∀ n v, memo.lookup n = some v →
    (∀ d ∈ depsOf wf n, (memo.lookup d).isSome = true) ∧
    v = ((depsOf wf n).map (memoVal memo)).foldl max 0 + 1

/-- `m2` extends `m1`: every memoized value persists unchanged. -/
def MemoExt (m1 m2 : List (String × Nat)) : Prop :=
  ∀ n v, m1.lookup n = some v → m2.lookup n = some v

theorem memoExt_refl (m : List (String × Nat)) : MemoExt m m :=
  fun _ _ h => h

theorem memoExt_trans {m1 m2 m3 : List (String × Nat)}
    (h1 : MemoExt m1 m2) (h2 : MemoExt m2 m3) : MemoExt m1 m3 :=
  fun n v h => h2 n v (h1 n v h)

theorem memoVal_ext {m1 m2 : List (String × Nat)} {d : String}
    (he : MemoExt m1 m2) (h : (m1.lookup d).isSome = true) :
    memoVal m2 d = memoVal m1 d := by
  cases hl : m1.lookup d with
  | none => rw [hl] at h; simp at h
  | some v =>
    unfold memoVal
    rw [hl, he d v hl]

theorem keys_lookup_isSome {α : Type} {l : List (String × α)} {x : String} :
    x ∈ l.map Prod.fst ↔ (l.lookup x).isSome = true := by
  induction l with
  | nil => simp [List.lookup]
  | cons p rest ih =>
    obtain ⟨k, v⟩ := p
    simp only [List.map_cons, List.mem_cons, List.lookup]
    by_cases hk : x = k
    · subst hk
      simp
    · have hbe : (x == k) = false := by simp [hk]
      rw [hbe]
      simp only [hk, false_or]
      exact ih

theorem assocSet_keys_fresh {α : Type} {l : List (String × α)} {k : String}
    (v : α) (h : l.lookup k = none) :
    (assocSet l k v).map Prod.fst = l.map Prod.fst ++ [k] := by
  induction l with
  | nil => rfl
  | cons p rest ih =>
    obtain ⟨k0, v0⟩ := p
    simp only [List.lookup] at h
    by_cases hk : k = k0
    · simp [hk] at h
    · have hbe : (k == k0) = false := by simp [hk]
      rw [hbe] at h
      have hne : k0 ≠ k := fun he => hk he.symm
      simp only [assocSet, if_neg hne, List.map_cons, List.cons_append,
        List.cons.injEq, true_and]
      exact ih h

/-- Memo invariant relative to a fixed reverse-topological order `done`. -/
def MemoInv (wf : Workflow) (done : List String)
    (memo : List (String × Nat)) : Prop :=
  MemoGood wf memo ∧ (memo.map Prod.fst).Nodup ∧
  ∀ x, (memo.lookup x).isSome = true → x ∈ done

/-- The recursion hypothesis handed to the dependency-fold lemma: a call on
any node of rank below `bound` succeeds and returns a well-formed extended
memo whose new keys all have rank at most the callee's. -/
def CalcRec (wf : Workflow) (done : List String) (f : Nat) (bound : Nat) : Prop :=
  ∀ (d : String) (memo : List (String × Nat)),
    d ∈ done → rankIn done d < bound →
    MemoInv wf done memo →
    ∃ v memo', calcLen wf f d memo = some (v, memo') ∧
      MemoExt memo memo' ∧ MemoInv wf done memo' ∧
      (∀ x, (memo'.lookup x).isSome = true →
        (memo.lookup x).isSome = true ∨ rankIn done x ≤ rankIn done d) ∧
      memo'.lookup d = some v

theorem calcFold_ok {wf : Workflow} {done : List String} {f : Nat} {n : String}
    (hT : TopoOK wf done) (hDnd : done.Nodup) (hn : n ∈ done)
    (hrec : CalcRec wf done f (rankIn done n)) :
    ∀ (dl : List String) (acc : Nat) (memo1 : List (String × Nat)),
    (∀ d ∈ dl, d ∈ depsOf wf n) →
    MemoInv wf done memo1 →
    ∃ acc' memo1',
      calcFold (fun d mm => calcLen wf f d mm) dl acc memo1 = some (acc', memo1') ∧
      MemoExt memo1 memo1' ∧ MemoInv wf done memo1' ∧
      (∀ x, (memo1'.lookup x).isSome = true →
        (memo1.lookup x).isSome = true ∨ rankIn done x < rankIn done n) ∧
      (∀ d ∈ dl, (memo1'.lookup d).isSome = true) ∧
      acc' = (dl.map (memoVal memo1')).foldl max acc := by
  intro dl
  induction dl with
  | nil =>
    intro acc memo1 _ hinv1
    exact ⟨acc, memo1, rfl, memoExt_refl _, hinv1,
      fun x hx => Or.inl hx, by simp, rfl⟩
  | cons d rest ih =>
    intro acc memo1 hdl hinv1
    have hdep : d ∈ depsOf wf n := hdl d (List.mem_cons_self _ _)
    have hdr := rank_edge_lt hT hDnd hn hdep
    obtain ⟨vd, memo2, heq2, hext2, hinv2, hnew2, hlook2⟩ :=
      hrec d memo1 hdr.1 hdr.2 hinv1
    obtain ⟨acc', memo1', heq', hext', hinv', hnew', hpres', hacc'⟩ :=
      ih (max acc vd) memo2 (fun e he => hdl e (List.mem_cons_of_mem _ he)) hinv2
    refine ⟨acc', memo1', ?_, memoExt_trans hext2 hext', hinv', ?_, ?_, ?_⟩
    · simp only [calcFold, heq2]
      exact heq'
    · intro x hx
      rcases hnew' x hx with h1 | h1
      · rcases hnew2 x h1 with h2 | h2
        · exact Or.inl h2
        · exact Or.inr (lt_of_le_of_lt h2 hdr.2)
      · exact Or.inr h1
    · intro e he
      rcases List.mem_cons.mp he with h1 | h1
      · subst h1
        rw [hext' e vd hlook2]
        rfl
      · exact hpres' e h1
    · have hval : memoVal memo1' d = vd := by
        unfold memoVal
        rw [hext' d vd hlook2]
        rfl
      rw [hacc']
      simp only [List.map_cons, List.foldl_cons, hval]

theorem calcLen_ok {wf : Workflow} {done : List String}
    (hT : TopoOK wf done) (hDnd : done.Nodup) :
    ∀ (r : Nat) (n : String) (memo : List (String × Nat)) (fuel : Nat),
    n ∈ done → rankIn done n < r → r ≤ fuel →
    MemoInv wf done memo →
    ∃ v memo', calcLen wf fuel n memo = some (v, memo') ∧
      MemoExt memo memo' ∧ MemoInv wf done memo' ∧
      (∀ x, (memo'.lookup x).isSome = true →
        (memo.lookup x).isSome = true ∨ rankIn done x ≤ rankIn done n) ∧
      memo'.lookup n = some v := by
  intro r
  induction r using Nat.strong_induction_on with
  | _ r IH =>
    intro n memo fuel hn hr hf hinv
    cases fuel with
    | zero => omega
    | succ f =>
      cases hl : memo.lookup n with
      | some v =>
        refine ⟨v, memo, ?_, memoExt_refl _, hinv, fun x hx => Or.inl hx, hl⟩
        simp only [calcLen, hl]
      | none =>
        have hrec : CalcRec wf done f (rankIn done n) := by
          intro d memo1 hd hdr hinv1
          exact IH (rankIn done n) (by omega) d memo1 f hd hdr (by omega) hinv1
        obtain ⟨maxd, memo1', heqF, hextF, hinvF, hnewF, hpresF, haccF⟩ :=
          calcFold_ok hT hDnd hn hrec (depsOf wf n) 0 memo
            (fun d hd => hd) hinv
        have hnabs : (memo1'.lookup n).isSome = false := by
          cases hx : (memo1'.lookup n).isSome with
          | false => rfl
          | true =>
            exfalso
            rcases hnewF n hx with h1 | h1
            · rw [hl] at h1; simp at h1
            · omega
        have hnabs' : memo1'.lookup n = none := by
          cases hx : memo1'.lookup n with
          | none => rfl
          | some v => rw [hx] at hnabs; simp at hnabs
        have hdne : ∀ d, (memo1'.lookup d).isSome = true → d ≠ n := by
          intro d hd he
          subst he
          rw [hnabs'] at hd
          simp at hd
        obtain ⟨hGood, hNd, hSub⟩ := hinvF
        have hkeys : (assocSet memo1' n (maxd + 1)).map Prod.fst
            = memo1'.map Prod.fst ++ [n] := assocSet_keys_fresh _ hnabs'
        refine ⟨maxd + 1, assocSet memo1' n (maxd + 1), ?_, ?_, ⟨?_, ?_, ?_⟩, ?_, assocSet_lookup _ _ _⟩
        · simp only [calcLen, hl, heqF]
        · -- extension
          intro x vx hx
          have hxn : x ≠ n := by
            intro he
            subst he
            rw [hl] at hx
            exact Option.noConfusion hx
          rw [assocSet_lookup_ne _ _ _ _ hxn]
          exact hextF x vx hx
        · -- MemoGood
          intro m v hm
          by_cases hmn : m = n
          · subst hmn
            rw [assocSet_lookup] at hm
            injection hm with hm
            subst hm
            constructor
            · intro d hd
              have hdn : d ≠ m := by
                intro he
                subst he
                have := rank_edge_lt hT hDnd hn hd
                omega
              rw [assocSet_lookup_ne _ _ _ _ hdn]
              exact hpresF d hd
            · have hcong : (depsOf wf m).map (memoVal (assocSet memo1' m (maxd + 1)))
                  = (depsOf wf m).map (memoVal memo1') := by
                apply List.map_congr_left
                intro d hd
                have hdn : d ≠ m := by
                  intro he
                  subst he
                  have := rank_edge_lt hT hDnd hn hd
                  omega
                unfold memoVal
                rw [assocSet_lookup_ne _ _ _ _ hdn]
              rw [hcong, ← haccF]
          · rw [assocSet_lookup_ne _ _ _ _ hmn] at hm
            obtain ⟨hpres, hval⟩ := hGood m v hm
            constructor
            · intro d hd
              have hdn : d ≠ n := hdne d (hpres d hd)
              rw [assocSet_lookup_ne _ _ _ _ hdn]
              exact hpres d hd
            · have hcong : (depsOf wf m).map (memoVal (assocSet memo1' n (maxd + 1)))
                  = (depsOf wf m).map (memoVal memo1') := by
                apply List.map_congr_left
                intro d hd
                have hdn : d ≠ n := hdne d (hpres d hd)
                unfold memoVal
                rw [assocSet_lookup_ne _ _ _ _ hdn]
              rw [hcong]
              exact hval
        · -- keys nodup
          rw [hkeys]
          rw [List.nodup_append]
          refine ⟨hNd, List.nodup_singleton n, ?_⟩
          intro x hx
          simp only [List.mem_singleton]
          intro he
          subst he
          have := keys_lookup_isSome.mp hx
          rw [hnabs'] at this
          simp at this
        · -- keys ⊆ done
          intro x hx
          by_cases hxn : x = n
          · subst hxn
            exact hn
          · rw [assocSet_lookup_ne _ _ _ _ hxn] at hx
            exact hSub x hx
        · -- new keys have rank ≤ rank n
          intro x hx
          by_cases hxn : x = n
          · subst hxn
            exact Or.inr (le_refl _)
          · rw [assocSet_lookup_ne _ _ _ _ hxn] at hx
            rcases hnewF x hx with h1 | h1
            · exact Or.inl h1
            · exact Or.inr (le_of_lt h1)

theorem lengthsLoop_ok {wf : Workflow} {done : List String}
    (hT : TopoOK wf done) (hDnd : done.Nodup)
    (hsubA : ∀ x ∈ done, x ∈ allNodes wf) :
    ∀ (tids : List String) (memo : List (String × Nat)),
    (∀ t ∈ tids, t ∈ done) → MemoInv wf done memo →
    ∃ memo', lengthsLoop wf tids memo = some memo' ∧
      MemoExt memo memo' ∧ MemoInv wf done memo' ∧
      ∀ t ∈ tids, (memo'.lookup t).isSome = true := by
  intro tids
  induction tids with
  | nil =>
    intro memo _ hinv
    exact ⟨memo, rfl, memoExt_refl _, hinv, by simp⟩
  | cons tid rest ih =>
    intro memo htids hinv
    have htid : tid ∈ done := htids tid (List.mem_cons_self _ _)
    have hrank : rankIn done tid < done.length := rankIn_lt_length htid
    have hdlen : done.length ≤ (allNodes wf).length :=
      nodup_sub_length_le hDnd hsubA
    obtain ⟨v, memo2, heq2, hext2, hinv2, _, hlook2⟩ :=
      calcLen_ok hT hDnd (rankIn done tid + 1) tid memo (dfsFuel wf)
        htid (by omega) (by unfold dfsFuel; omega) hinv
    obtain ⟨memo', heq', hext', hinv', hpres'⟩ :=
      ih memo2 (fun t ht => htids t (List.mem_cons_of_mem _ ht)) hinv2
    refine ⟨memo', ?_, memoExt_trans hext2 hext', hinv', ?_⟩
    · simp only [lengthsLoop, heq2]
      exact heq'
    · intro t ht
      rcases List.mem_cons.mp ht with h1 | h1
      · subst h1
        rw [hext' t v hlook2]
        rfl
      · exact hpres' t h1

theorem memoInv_nil (wf : Workflow) (done : List String) :
    MemoInv wf done [] := by
  refine ⟨?_, by simp, ?_⟩
  · intro n v h
    simp [List.lookup] at h
  · intro x h
    simp [List.lookup] at h

/-! ### Claim C10 -/

theorem selfLoop_calcLen_none : ∀ fuel, calcLen selfLoopWf fuel "A" [] = none := by
  intro fuel
  induction fuel with
  | zero => rfl
  | succ f ih =>
    have hdeps : depsOf selfLoopWf "A" = ["A"] := rfl
    simp only [calcLen, List.lookup, hdeps, calcFold, ih]

/-- C10: for every workflow whose dependency relation is acyclic,
`get_critical_path` terminates — the memoized recursion `calculate_length`
is well-founded along dependency edges (any recursion depth of at most the
node count suffices) — and acyclicity is necessary: on the one-task
self-loop workflow, `calculate_length("A")` fails at every recursion depth
(it contains no cycle guard), so `get_critical_path` diverges there. -/
theorem C10_critical_path_termination :
    (∀ wf : Workflow, Acyclic wf → (get_critical_path wf).isSome = true) ∧
    (∀ fuel, calcLen selfLoopWf fuel "A" [] = none) ∧
    get_critical_path selfLoopWf = none := by
  refine ⟨?_, selfLoop_calcLen_none, ?_⟩
  · intro wf hA
    obtain ⟨done, hT, hDnd, hsubA, hkeys⟩ := acyclic_topo hA
    obtain ⟨memo', heq, _, _, _⟩ :=
      lengthsLoop_ok hT hDnd hsubA (wf.tasks.map Prod.fst) []
        hkeys (memoInv_nil wf done)
    unfold get_critical_path
    rw [heq]
    rfl
  · have h := selfLoop_calcLen_none (dfsFuel selfLoopWf)
    unfold get_critical_path
    have hkeys : selfLoopWf.tasks.map Prod.fst = ["A"] := rfl
    rw [hkeys]
    simp only [lengthsLoop, h]

/-- Witness for C10 at the diamond workflow (acyclic by the verified cycle
check). -/
theorem C10_witness : (get_critical_path diamondWf).isSome = true :=
  C10_critical_path_termination.1 diamondWf
    ((has_cycle_correct diamondWf).2.mp rfl)

/-! ### Sortedness, density and greedy-collection lemmas for C4 -/

/-- Descending order by stored length. -/
def SortedDesc (l : List (String × Nat)) : Prop :=
  l.Pairwise fun a b => b.2 ≤ a.2

theorem insertDesc_perm (p : String × Nat) (l : List (String × Nat)) :
    (insertDesc p l).Perm (p :: l) := by
  induction l with
  | nil => rfl
  | cons q rest ih =>
    simp only [insertDesc]
    by_cases h : q.2 < p.2
    · rw [if_pos h]
    · rw [if_neg h]
      exact (ih.cons q).trans (List.Perm.swap p q rest)

theorem insertDesc_sorted (p : String × Nat) {l : List (String × Nat)}
    (h : SortedDesc l) : SortedDesc (insertDesc p l) := by
  induction l with
  | nil => exact List.pairwise_singleton _ _
  | cons q rest ih =>
    simp only [insertDesc]
    by_cases hle : q.2 < p.2
    · rw [if_pos hle]
      refine List.Pairwise.cons ?_ h
      intro x hx
      rcases List.mem_cons.mp hx with h1 | h1
      · subst h1
        omega
      · have := List.rel_of_pairwise_cons h h1
        omega
    · rw [if_neg hle]
      refine List.Pairwise.cons ?_ (ih (List.Pairwise.of_cons h))
      intro x hx
      have hx' : x ∈ p :: rest := (insertDesc_perm p rest).mem_iff.mp hx
      rcases List.mem_cons.mp hx' with h1 | h1
      · subst h1
        omega
      · exact List.rel_of_pairwise_cons h h1

theorem sortDesc_perm_aux : ∀ (l acc : List (String × Nat)),
    (l.foldl (fun a q => insertDesc q a) acc).Perm (acc ++ l) := by
  intro l
  induction l with
  | nil => intro acc; simp
  | cons q rest ih =>
    intro acc
    simp only [List.foldl_cons]
    have h1 := ih (insertDesc q acc)
    have h2 : (insertDesc q acc ++ rest).Perm (acc ++ q :: rest) := by
      have h3 : (insertDesc q acc).Perm (q :: acc) := insertDesc_perm q acc
      have h4 : (insertDesc q acc ++ rest).Perm ((q :: acc) ++ rest) :=
        h3.append_right rest
      have h5 : (q :: (acc ++ rest)).Perm (acc ++ q :: rest) :=
        List.perm_middle.symm
      exact h4.trans h5
    exact h1.trans h2

theorem sortDesc_perm (l : List (String × Nat)) : (sortDesc l).Perm l :=
  sortDesc_perm_aux l []

theorem sortDesc_sorted_aux : ∀ (l acc : List (String × Nat)),
    SortedDesc acc → SortedDesc (l.foldl (fun a q => insertDesc q a) acc) := by
  intro l
  induction l with
  | nil => intro acc h; exact h
  | cons q rest ih =>
    intro acc h
    simp only [List.foldl_cons]
    exact ih (insertDesc q acc) (insertDesc_sorted q h)

theorem sortDesc_sorted (l : List (String × Nat)) : SortedDesc (sortDesc l) :=
  sortDesc_sorted_aux l [] List.Pairwise.nil

/-- The values M, M-1, …, 1. -/
def countdown : Nat → List Nat
  | 0 => []
  | n + 1 => (n + 1) :: countdown n

theorem countdown_length : ∀ n, (countdown n).length = n := by
  intro n
  induction n with
  | zero => rfl
  | succ k ih => simp [countdown, ih]

theorem collect_spec : ∀ (s : List (String × Nat)) (current : Nat),
    SortedDesc s →
    (∀ q ∈ s, 1 ≤ q.2) →
    (∀ v, 1 ≤ v → v ≤ current → ∃ q ∈ s, q.2 = v) →
    (collectP s current).map Prod.snd = countdown current := by
  intro s
  induction s with
  | nil =>
    intro current _ _ hdense
    cases current with
    | zero => rfl
    | succ c =>
      exfalso
      obtain ⟨q, hq, _⟩ := hdense (c + 1) (by omega) (le_refl _)
      simp at hq
  | cons p rest ih =>
    intro current hsort hpos hdense
    have hp1 : 1 ≤ p.2 := hpos p (List.mem_cons_self _ _)
    simp only [collectP]
    by_cases hpc : p.2 = current
    · rw [if_pos hpc]
      have hrest : (collectP rest (current - 1)).map Prod.snd
          = countdown (current - 1) := by
        apply ih
        · exact List.Pairwise.of_cons hsort
        · intro q hq
          exact hpos q (List.mem_cons_of_mem _ hq)
        · intro v hv1 hv2
          obtain ⟨q, hq, hqv⟩ := hdense v hv1 (by omega)
          rcases List.mem_cons.mp hq with h1 | h1
          · exfalso
            subst h1
            omega
          · exact ⟨q, h1, hqv⟩
      have hcur : current = (current - 1) + 1 := by omega
      rw [List.map_cons, hrest, hpc]
      rw [hcur]
      rfl
    · rw [if_neg hpc]
      have hgt : current < p.2 := by
        rcases Nat.lt_trichotomy p.2 current with h1 | h1 | h1
        · exfalso
          obtain ⟨q, hq, hqv⟩ := hdense current (by omega) (le_refl _)
          rcases List.mem_cons.mp hq with h2 | h2
          · subst h2
            omega
          · have := List.rel_of_pairwise_cons hsort h2
            omega
        · exact absurd h1 hpc
        · exact h1
      apply ih current (List.Pairwise.of_cons hsort)
        (fun q hq => hpos q (List.mem_cons_of_mem _ hq))
      intro v hv1 hv2
      obtain ⟨q, hq, hqv⟩ := hdense v hv1 hv2
      rcases List.mem_cons.mp hq with h1 | h1
      · exfalso
        subst h1
        omega
      · exact ⟨q, h1, hqv⟩

theorem lookup_of_mem_nodup {α : Type} {l : List (String × α)} {k : String}
    {v : α} (hnd : (l.map Prod.fst).Nodup) (h : (k, v) ∈ l) :
    l.lookup k = some v := by
  induction l with
  | nil => simp at h
  | cons p rest ih =>
    obtain ⟨k0, v0⟩ := p
    simp only [List.map_cons, List.nodup_cons] at hnd
    rcases List.mem_cons.mp h with h1 | h1
    · injection h1 with h2 h3
      subst h2
      subst h3
      simp [List.lookup]
    · have hk : k ≠ k0 := by
        intro he
        subst he
        exact hnd.1 (List.mem_map.mpr ⟨(k, v), h1, rfl⟩)
      have hbe : (k == k0) = false := by simp [hk]
      simp only [List.lookup, hbe]
      exact ih hnd.2 h1

theorem foldl_max_mem : ∀ (l : List Nat) (a : Nat),
    l.foldl max a = a ∨ l.foldl max a ∈ l := by
  intro l
  induction l with
  | nil => intro a; exact Or.inl rfl
  | cons x rest ih =>
    intro a
    simp only [List.foldl_cons]
    rcases ih (max a x) with h | h
    · rcases max_choice a x with h2 | h2
      · exact Or.inl (h.trans h2)
      · refine Or.inr ?_
        rw [h, h2]
        exact List.mem_cons_self _ _
    · exact Or.inr (List.mem_cons_of_mem _ h)

theorem memo_attained {memo : List (String × Nat)} (h1 : 1 ≤ maxOf memo) :
    ∃ q ∈ memo, q.2 = maxOf memo := by
  unfold maxOf at h1 ⊢
  rcases foldl_max_mem (memo.map Prod.snd) 0 with h | h
  · omega
  · obtain ⟨q, hq, hqv⟩ := List.mem_map.mp h
    exact ⟨q, hq, hqv⟩

theorem memo_step {wf : Workflow} {memo : List (String × Nat)}
    (hG : MemoGood wf memo) (hNd : (memo.map Prod.fst).Nodup)
    {v : Nat} (hv : 1 ≤ v) (h : ∃ q ∈ memo, q.2 = v + 1) :
    ∃ q ∈ memo, q.2 = v := by
  obtain ⟨⟨n, w⟩, hq, hqv⟩ := h
  simp only [] at hqv
  have hlook : memo.lookup n = some w := lookup_of_mem_nodup hNd hq
  obtain ⟨hpres, hval⟩ := hG n w hlook
  have hfold : ((depsOf wf n).map (memoVal memo)).foldl max 0 = v := by omega
  rcases foldl_max_mem ((depsOf wf n).map (memoVal memo)) 0 with h2 | h2
  · omega
  · rw [hfold] at h2
    obtain ⟨d, hd, hdv⟩ := List.mem_map.mp h2
    have hds := hpres d hd
    cases hdl : memo.lookup d with
    | none => rw [hdl] at hds; simp at hds
    | some w2 =>
      have hw2 : w2 = v := by
        unfold memoVal at hdv
        rw [hdl] at hdv
        simpa using hdv
      subst hw2
      exact ⟨(d, w2), lookup_mem hdl, rfl⟩

theorem memo_dense {wf : Workflow} {memo : List (String × Nat)}
    (hG : MemoGood wf memo) (hNd : (memo.map Prod.fst).Nodup) :
    ∀ (k v : Nat), v + k = maxOf memo → 1 ≤ v → ∃ q ∈ memo, q.2 = v := by
  intro k
  induction k with
  | zero =>
    intro v h hv
    have : v = maxOf memo := by omega
    subst this
    exact memo_attained hv
  | succ k ih =>
    intro v h hv
    have h2 := ih (v + 1) (by omega) (by omega)
    exact memo_step hG hNd hv h2

/-! ### Claim C4 -/

/-- C4: on an acyclic workflow, `get_critical_path` first assigns every task
the value of the recurrence `length(t) = 1 + max(length(dep))` (1 with no
dependencies), then greedily collects one task per strictly decreasing
length value starting from the maximum — the collected values are exactly
M, M-1, …, 1 where M is the maximal length — with ties between equal-length
tasks resolved by the memo's per-task insertion order (the stable sort keeps
it); on the diamond A→B, A→C, B→D, C→D the returned critical path is
["D", "B", "A"], of length 3. -/
theorem C4_critical_path_structure (wf : Workflow) (hA : Acyclic wf) :
    ∃ memo, lengthsLoop wf (wf.tasks.map Prod.fst) [] = some memo ∧
      (∀ p ∈ wf.tasks, ∃ v, memo.lookup p.1 = some v ∧
        v = ((depsOf wf p.1).map (memoVal memo)).foldl max 0 + 1) ∧
      get_critical_path wf =
        some ((collectP (sortDesc memo) (maxOf memo)).map Prod.fst) ∧
      (collectP (sortDesc memo) (maxOf memo)).map Prod.snd
        = countdown (maxOf memo) ∧
      ((collectP (sortDesc memo) (maxOf memo)).map Prod.fst).length
        = maxOf memo ∧
      get_critical_path diamondWf = some ["D", "B", "A"] := by
  obtain ⟨done, hT, hDnd, hsubA, hkeys⟩ := acyclic_topo hA
  obtain ⟨memo, heq, _, hinv, hpres⟩ :=
    lengthsLoop_ok hT hDnd hsubA (wf.tasks.map Prod.fst) [] hkeys
      (memoInv_nil wf done)
  obtain ⟨hG, hNd, _⟩ := hinv
  have hcoll : (collectP (sortDesc memo) (maxOf memo)).map Prod.snd
      = countdown (maxOf memo) := by
    have hvals : ∀ q ∈ sortDesc memo, 1 ≤ q.2 := by
      intro q hq
      have hqm : q ∈ memo := (sortDesc_perm memo).mem_iff.mp hq
      obtain ⟨n, w⟩ := q
      have hlook := lookup_of_mem_nodup hNd hqm
      have := (hG n w hlook).2
      simp only []
      omega
    apply collect_spec _ _ (sortDesc_sorted memo) hvals
    intro v hv1 hv2
    obtain ⟨q, hq, hqv⟩ := memo_dense hG hNd (maxOf memo - v) v (by omega) hv1
    exact ⟨q, (sortDesc_perm memo).mem_iff.mpr hq, hqv⟩
  refine ⟨memo, heq, ?_, ?_, hcoll, ?_, rfl⟩
  · intro p hp
    have ht : p.1 ∈ wf.tasks.map Prod.fst := List.mem_map.mpr ⟨p, hp, rfl⟩
    have hsome := hpres p.1 ht
    cases hl : memo.lookup p.1 with
    | none => rw [hl] at hsome; simp at hsome
    | some v => exact ⟨v, rfl, (hG p.1 v hl).2⟩
  · unfold get_critical_path
    rw [heq]
  · calc ((collectP (sortDesc memo) (maxOf memo)).map Prod.fst).length
        = (collectP (sortDesc memo) (maxOf memo)).length := List.length_map _ _
      _ = ((collectP (sortDesc memo) (maxOf memo)).map Prod.snd).length :=
        (List.length_map _ _).symm
      _ = (countdown (maxOf memo)).length := by rw [hcoll]
      _ = maxOf memo := countdown_length _

/-- Witness for C4 at the diamond workflow: the returned path is
["D", "B", "A"] and its length equals the maximal chain length. -/
theorem C4_witness :
    get_critical_path diamondWf = some ["D", "B", "A"] ∧
    ∃ memo, lengthsLoop diamondWf (diamondWf.tasks.map Prod.fst) [] = some memo ∧
      ((collectP (sortDesc memo) (maxOf memo)).map Prod.fst).length
        = maxOf memo := by
  obtain ⟨memo, h1, _, _, _, h5, h6⟩ :=
    C4_critical_path_structure diamondWf ((has_cycle_correct diamondWf).2.mp rfl)
  exact ⟨h6, memo, h1, h5⟩

end Arq
